import Mathlib

/-!
# Dual-versioned software transactional memory (`tm.cpp`)

A shallow embedding of the word store, of the public entry points of
`src/376166/tm.cpp` (create, the accessors, begin, end, read, write, alloc,
free) and of the Batcher of `src/376166/dual-vers.cpp`, followed by the
properties established for them.

Modelling conventions.

* `size_t` and `uintptr_t` are 64 bits wide: products and increments computed in
  `size_t` are reduced modulo `2 ^ 64`.
* A `uint` (the type of `copy_A`, `copy_B` and of the cells the private
  buffers are read and written through) is a natural number; the code only
  copies such values and never does arithmetic on them.
* The memory behind `region::start` is seen as an array of `struct word`:
  `mem k` is the cell `((struct word*) start)[k]`.
* A pointer argument that the callee dereferences is passed as the value of
  the cell it points to, and the new value of that cell is returned.
* The two `for` loops take a fuel argument and return `none` when it runs out
  (with `align = 0` the source loops never leave).
* The code is run by one thread at a time: each atomic load and store is a
  plain field access. The one exception is the section on the atomic steps of
  `tm_write_word`, where two calls take their loads and stores (all sequentially
  consistent) in the order a schedule gives.
* The two `std::atomic_int` of the Batcher are integers whose arithmetic wraps
  around at 32 bits.
* Global variables (`segment_list`, the variables of the Batcher) are passed
  to the functions that use them and returned by those that change them.
* `tm_alloc` addresses its words by byte offsets; `sizeof(struct word)` is a
  parameter `word_bytes`, and the results of `malloc` are an input.
-/

namespace TM

/-- The C type `uint` (32-bit unsigned); values are only ever copied. -/
abbrev uint := Nat

/-- Transcription of `enum class Alloc` (tm.hpp). -/
inductive Alloc where
  | success
  | abort
  | nomem
deriving DecidableEq, Repr

/-- Transcription of `struct word` (tm.cpp): `valid = false` means `copy_A` is
the readable copy, `valid = true` means `copy_B` is. -/
structure word where
  valid : Bool
  accessed : Bool
  written : Bool
  copy_A : uint
  copy_B : uint
deriving DecidableEq, Repr

/-- Transcription of `struct region` (tm.cpp) together with the memory its
`start` pointer designates, viewed as an array of `struct word`. -/
structure region where
  start : Nat
  mem : Nat → word
  allocs : Alloc
  size : Nat
  align : Nat

/-- The constant `read_only_tx = UINTPTR_MAX - 10`. -/
def read_only_tx : Nat := (2 ^ 64 - 1) - 10

/-- The constant `read_write_tx = UINTPTR_MAX - 11`. -/
def read_write_tx : Nat := (2 ^ 64 - 1) - 11

/-- The constant `invalid_tx = ~(tx_t(0))`. -/
def invalid_tx : Nat := 2 ^ 64 - 1

/-- Transcription of `tm_begin`: the handle only records the kind of the
transaction; the region is not touched. -/
def tm_begin (_shared : region) (is_ro : Bool) : Nat :=
  let tx := if is_ro then read_only_tx else read_write_tx
  if tx = 0 then invalid_tx else tx

/-- Transcription of `tm_end`: returns `true` and leaves the region as it is. -/
def tm_end (shared : region) (_tx : Nat) : Bool × region :=
  (true, shared)

/-- Transcription of `tm_find_word_by_index`: `none` is the `NULL` result, and
`some k` is the pointer `(struct word*) start + k`. -/
def tm_find_word_by_index (shared : region) (index : Nat) : Option Nat :=
  if (index * shared.align) % 2 ^ 64 ≥ shared.size then none
  else some ((index * shared.align) % 2 ^ 64)

/-- The region after a store of the word `w` into the cell `p` of its memory. -/
def set_word (shared : region) (p : Nat) (w : word) : region :=
  { shared with mem := Function.update shared.mem p w }

/-- Transcription of `tm_read_word`. `target` is the value of the cell
`*(uint*) target` before the call; the result holds the return value, the value
of that cell after the call, and the region after the call. -/
def tm_read_word (shared : region) (index : Nat) (_size : Nat) (target : uint)
    (is_ro : Bool) : Bool × uint × region :=
  match tm_find_word_by_index shared index with
  | none => (false, target, shared)
  | some p =>
    let source := shared.mem p
    if is_ro then
      (true, (if source.valid then source.copy_B else source.copy_A), shared)
    else
      if source.written then
        if source.accessed then
          (true, (if source.valid then source.copy_A else source.copy_B), shared)
        else
          (false, target, shared)
      else
        (true, (if source.valid then source.copy_B else source.copy_A),
          set_word shared p { source with accessed := true })

/-- Transcription of `tm_write_word`. `source` is the value `*(uint*) source`;
the result holds the return value and the region after the call. -/
def tm_write_word (shared : region) (index : Nat) (source : uint) (_size : Nat)
    (is_ro : Bool) : Bool × region :=
  match tm_find_word_by_index shared index with
  | none => (false, shared)
  | some p =>
    let target := shared.mem p
    if is_ro then
      (false, shared)
    else
      if target.written then
        if target.accessed then
          let target1 : word :=
            if target.valid then { target with copy_A := source, written := true }
            else { target with copy_B := source, written := true }
          (true, set_word shared p target1)
        else (false, shared)
      else
        if target.accessed then
          (false, shared)
        else
          let target1 : word :=
            if target.valid then
              { target with copy_A := source, written := true, accessed := true }
            else
              { target with copy_B := source, written := true, accessed := true }
          (true, set_word shared p target1)

/-- The `for` loop of `tm_read`, from the loop variable `index` on. `buf` is
the private memory seen as an array of `uint` cells and `target` the offset in
it of the moving pointer `target`, which advances by `align` cells per round.
Every word is read with `is_ro = true`. -/
def tm_read_loop : Nat → region → Nat → Nat → (Nat → uint) → Nat →
    Option (Bool × (Nat → uint) × region)
  | 0, _, _, _, _, _ => none
  | fuel + 1, shared, index, size, buf, target =>
    if (index * shared.align) % 2 ^ 64 < shared.size then
      match tm_read_word shared index size (buf target) true with
      | (false, v, shared1) =>
        some (false, Function.update buf target v, { shared1 with allocs := Alloc.abort })
      | (true, v, shared1) =>
        tm_read_loop fuel shared1 ((index + 1) % 2 ^ 64) size
          (Function.update buf target v) (target + shared1.align)
    else
      some (true, buf, shared)

/-- Transcription of `tm_read`: the handle `tx` and the address `source` are
not used; `target` is the private buffer, indexed from the pointer passed in. -/
def tm_read (fuel : Nat) (shared : region) (_tx : Nat) (_source : Nat) (size : Nat)
    (target : Nat → uint) : Option (Bool × (Nat → uint) × region) :=
  tm_read_loop fuel shared 0 size target 0

/-- The `for` loop of `tm_write`, from the loop variable `index` on. `source`
is the value `*(uint*) source`; the pointer `source` is never advanced, and the
pointer `target` is advanced but never dereferenced. Every word is written with
`is_ro = false`. -/
def tm_write_loop : Nat → region → Nat → uint → Nat → Option (Bool × region)
  | 0, _, _, _, _ => none
  | fuel + 1, shared, index, source, size =>
    if (index * shared.align) % 2 ^ 64 < shared.size then
      match tm_write_word shared index source size false with
      | (false, shared1) => some (false, { shared1 with allocs := Alloc.abort })
      | (true, shared1) => tm_write_loop fuel shared1 ((index + 1) % 2 ^ 64) source size
    else
      some (true, shared)

/-- Transcription of `tm_write`: the handle `tx` and the address `target` are
not used; `source` is the private buffer, indexed from the pointer passed in. -/
def tm_write (fuel : Nat) (shared : region) (_tx : Nat) (source : Nat → uint) (size : Nat)
    (_target : Nat) : Option (Bool × region) :=
  tm_write_loop fuel shared 0 (source 0) size

/-- Transcription of `tm_start`. -/
def tm_start (shared : region) : Nat := shared.start

/-- Transcription of `tm_size`. -/
def tm_size (shared : region) : Nat := shared.size

/-- Transcription of `tm_align`. -/
def tm_align (shared : region) : Nat := shared.align

/-- Transcription of `tm_create` (tm.cpp). `malloc_ok` tells whether the
`malloc` of the `struct region` succeeds (otherwise the result is `none`, for
`invalid_shared`). The field `start` is never assigned: its value `start` and
the cells `mem` behind it are inputs. `memset(region->start, 0, size)` turns the
cells that lie in the first `size` bytes into all-zero words, where `word_bytes`
is `sizeof(struct word)`; the one cell that those bytes may cover only in part
then holds `edge_cell`, an input. `static_cast<Alloc>(NULL)` is
`Alloc.success`. -/
def tm_create (word_bytes : Nat) (malloc_ok : Bool) (start : Nat) (mem : Nat → word)
    (edge_cell : word) (size align : Nat) : Option region :=
  if malloc_ok = false then
    none
  else
    some { start := start,
           mem := fun c =>
             if (c + 1) * word_bytes ≤ size then ⟨false, false, false, 0, 0⟩
             else if c * word_bytes < size then edge_cell
             else mem c,
           allocs := Alloc.success,
           size := size,
           align := align }

/-- What a call of `tm_alloc` leaves: its return value, the value of the cell
`*target`, the global `segment_list` (a list of `region*` values) and the
region. -/
structure alloc_result where
  ret : Alloc
  target : Nat
  segment_list : List Nat
  shared : region

/-- The effect of `memset(segment, 0, size)` on the cells behind `start`, where
`word_bytes` is `sizeof(struct word)` and `size` a multiple of it: the cells
that lie in the first `size` bytes become all-zero words. -/
def memset_zero (mem : Nat → word) (word_bytes size : Nat) : Nat → word :=
  fun c => if c * word_bytes < size then ⟨false, false, false, 0, 0⟩ else mem c

/-- The `for` loop of `tm_alloc` with `n` rounds left, from the loop variable
`i` on. The word of round `i` lies `i * align` bytes past `segment`, that is in
cell `i * align / word_bytes`; its flags are cleared and its copies receive the
results of two `malloc(align)` calls converted to 32 bits. `malloc j` is the
pointer returned by the `j`-th `malloc` call of the `tm_alloc` call. -/
def tm_alloc_loop (word_bytes align : Nat) (malloc : Nat → Nat) :
    Nat → Nat → (Nat → word) → (Nat → word)
  | 0, _, mem => mem
  | n + 1, i, mem =>
    tm_alloc_loop word_bytes align malloc n (i + 1)
      (Function.update mem (((i * align) % 2 ^ 64) / word_bytes)
        ⟨false, false, false, malloc (2 * i) % 2 ^ 32, malloc (2 * i + 1) % 2 ^ 32⟩)

/-- Transcription of `tm_alloc`. `handle` is the pointer value `shared`,
`target` the value of the cell `*target` before the call, `push_ok` tells
whether `segment_list.push_back` gets its memory (otherwise `std::bad_alloc` is
caught), and `word_bytes` is `sizeof(struct word)`. The result is `none` only
when `size / align` divides by zero. When `word_bytes` does not divide `align`
and `size`, the bytes the call stores to do not make up whole cells of the word
array: the cells that meet the first `size + word_bytes` bytes, beyond which the
call stores nothing, then hold what the input `off_cell` says, and the other
cells are as before. -/
def tm_alloc (word_bytes : Nat) (push_ok : Bool) (malloc : Nat → Nat) (off_cell : Nat → word)
    (segment_list : List Nat) (handle : Nat) (shared : region) (_tx : Nat) (size : Nat)
    (target : Nat) : Option alloc_result :=
  let align := tm_align shared
  if push_ok = false then
    some ⟨Alloc.nomem, target, segment_list, shared⟩
  else if align = 0 then
    none
  else
    let segment := shared.start
    let num_words := size / align
    let mem2 : Nat → word :=
      if word_bytes = 0 ∨ ¬ word_bytes ∣ align ∨ ¬ word_bytes ∣ size then
        fun c => if c * word_bytes < size + word_bytes then off_cell c else shared.mem c
      else
        tm_alloc_loop word_bytes align malloc num_words 0
          (memset_zero shared.mem word_bytes size)
    some ⟨Alloc.success, segment, segment_list ++ [handle], { shared with mem := mem2 }⟩

/-- Transcription of `tm_free`: the first occurrence of the pointer `shared`
(here `handle`) is erased from the global `segment_list`; `tx` and `target` are
not used. The result holds the return value and the list after the call. -/
def tm_free (segment_list : List Nat) (handle : Nat) (_shared : region) (_tx : Nat)
    (_target : Nat) : Bool × List Nat :=
  (true, segment_list.erase handle)

/-- The value an `int` of 32 bits takes for the integer `x`: `x` reduced modulo
`2 ^ 32` into the range from `-2 ^ 31` to `2 ^ 31 - 1`. The arithmetic of
`std::atomic_int` wraps around in this way. -/
def wrap_int (x : Int) : Int := (x + 2 ^ 31) % 2 ^ 32 - 2 ^ 31

/-- The global variables of `dual-vers.cpp`: the two `std::atomic_int`, the
flag `sleep_task` and the vector `blocked_pthread` of thread identifiers. -/
structure Batcher where
  counter : Int
  remaining : Int
  sleep_task : Bool
  blocked_pthread : List Nat
deriving DecidableEq, Repr

/-- Transcription of `enter_epoch`, for a caller whose `current_pthread` holds
`current_pthread`. The Boolean tells whether the caller is left suspended in
`sleep_task.wait(false)`, which blocks while `sleep_task` is `false`. -/
def enter_epoch (b : Batcher) (current_pthread : Nat) : Batcher × Bool :=
  if b.remaining ≠ 0 then
    ({ b with blocked_pthread := b.blocked_pthread ++ [current_pthread] }, !b.sleep_task)
  else
    ({ b with remaining := 1 }, false)

/-- Transcription of `leave_epoch`. The assignment of the `else` branch is
spelt `reamining = 1` in the source, which declares no variable of that name;
it is read as `remaining = 1`. Decrement, increment and the conversion of
`blocked_pthread.size()` to `int` wrap around. -/
def leave_epoch (b : Batcher) : Batcher :=
  let b1 := { b with remaining := wrap_int (b.remaining - 1) }
  if b1.remaining = 0 then
    { b1 with counter := wrap_int (b1.counter + 1),
              remaining := wrap_int (b1.blocked_pthread.length : Int),
              blocked_pthread := [] }
  else
    { b1 with remaining := 1 }

/-! ## The atomic steps of `tm_write_word` -/

/-- Where a thread stands inside a read-write call of `tm_write_word` whose
word `tm_find_word_by_index` has found: the next atomic load or store of the
call, together with what the thread has loaded so far, or the value the call
has returned. `written` is the value loaded from `target->written` (it selects
the outer branch), `valid` the value loaded from `target->valid`. -/
inductive write_pc where
  | load_written
  | load_accessed (written : Bool)
  | load_valid (written : Bool)
  | store_copy (written : Bool) (valid : Bool)
  | store_written (written : Bool)
  | store_accessed
  | done (ret : Bool)
deriving DecidableEq, Repr

/-- One atomic load or store of a read-write `tm_write_word` call with
`*(uint*) source = source`, on the word `target`, in the order of the source:
`written.load()`, `accessed.load()`, `valid.load()`, the store to `copy_A` or
`copy_B`, `written.store(true)` and, in the branch where `written` was found
clear, `accessed.store(true)`. A call that has returned does nothing. -/
def write_step (source : uint) (pc : write_pc) (target : word) : write_pc × word :=
  match pc with
  | write_pc.load_written => (write_pc.load_accessed target.written, target)
  | write_pc.load_accessed true =>
    if target.accessed then (write_pc.load_valid true, target) else (write_pc.done false, target)
  | write_pc.load_accessed false =>
    if target.accessed then (write_pc.done false, target) else (write_pc.load_valid false, target)
  | write_pc.load_valid written => (write_pc.store_copy written target.valid, target)
  | write_pc.store_copy written true =>
    (write_pc.store_written written, { target with copy_A := source })
  | write_pc.store_copy written false =>
    (write_pc.store_written written, { target with copy_B := source })
  | write_pc.store_written true => (write_pc.done true, { target with written := true })
  | write_pc.store_written false => (write_pc.store_accessed, { target with written := true })
  | write_pc.store_accessed => (write_pc.done true, { target with accessed := true })
  | write_pc.done ret => (write_pc.done ret, target)

/-- Two threads inside a read-write `tm_write_word` call each, on the same
word. -/
structure race_state where
  target : word
  pc1 : write_pc
  pc2 : write_pc
deriving DecidableEq, Repr

/-- The state after one atomic step of the first thread (`second = false`),
which writes `source1`, or of the second thread (`second = true`), which
writes `source2`. -/
def race_step (source1 source2 : uint) (s : race_state) (second : Bool) : race_state :=
  if second then
    { s with target := (write_step source2 s.pc2 s.target).2,
             pc2 := (write_step source2 s.pc2 s.target).1 }
  else
    { s with target := (write_step source1 s.pc1 s.target).2,
             pc1 := (write_step source1 s.pc1 s.target).1 }

/-- The state after the atomic steps of a schedule, which names for each step
the thread that takes it. -/
def race_run (source1 source2 : uint) (s : race_state) (schedule : List Bool) : race_state :=
  schedule.foldl (race_step source1 source2) s

/-- Both threads at the start of their call on the word `target`. -/
def race_start (target : word) : race_state :=
  ⟨target, write_pc.load_written, write_pc.load_written⟩

/-! ## Vocabulary used in the statements -/

/-- The copy selected by the valid bit: `copy_B` if `valid` is set, `copy_A`
otherwise. -/
def valid_copy (w : word) : uint := if w.valid then w.copy_B else w.copy_A

/-- The copy not selected by the valid bit: `copy_A` if `valid` is set,
`copy_B` otherwise. -/
def nonvalid_copy (w : word) : uint := if w.valid then w.copy_A else w.copy_B

/-- The cell that `tm_find_word_by_index` designates for `index` when the
index is in bounds. -/
def slot (shared : region) (index : Nat) : Nat := (index * shared.align) % 2 ^ 64

/-- The bounds test of `tm_find_word_by_index` passes for `index`. -/
def in_bounds (shared : region) (index : Nat) : Prop :=
  (index * shared.align) % 2 ^ 64 < shared.size

instance (shared : region) (index : Nat) : Decidable (in_bounds shared index) := by
  unfold in_bounds; infer_instance

/-- A region of one word of alignment `1` whose memory is zeroed, except that
`copy_A` of every cell holds `5`. -/
def region5 : region :=
  { start := 0, mem := fun _ => ⟨false, false, false, 5, 0⟩, allocs := Alloc.success,
    size := 1, align := 1 }

/-- Running a list of `tm_write_word` calls one after another, each given by its
arguments `(index, source, size, is_ro)`, whatever each call returns. -/
def write_word_seq (shared : region) : List (Nat × uint × Nat × Bool) → region
  | [] => shared
  | (index, source, size, is_ro) :: ops =>
    write_word_seq (tm_write_word shared index source size is_ro).2 ops

/-- A region of two words of alignment `1`; `copy_A` of every cell holds `5`
and all flags are clear. -/
def region5_two : region :=
  { start := 0, mem := fun _ => ⟨false, false, false, 5, 0⟩, allocs := Alloc.success,
    size := 2, align := 1 }

/-- The two-word region in which word `1` carries `accessed` alone, so that a
read-write `tm_write_word` of word `1` reports abort. -/
def region5_two_busy : region := set_word region5_two 1 ⟨false, true, false, 5, 0⟩

/-- A region of one word whose alignment is `12`, taken as `sizeof(struct word)`,
created the way the driver does (`tm_create(n * sizeof(struct word),
sizeof(struct word))`); `copy_A` of every cell holds `5` and all flags are
clear. -/
def region12 : region :=
  { start := 8192, mem := fun _ => ⟨false, false, false, 5, 0⟩, allocs := Alloc.success,
    size := 12, align := 12 }

/-- The state that `tm.cpp` and `dual-vers.cpp` share a process with: the
region and the variables of the Batcher. -/
structure tm_system where
  shared : region
  batcher : Batcher

/-- A call of `tm_begin` or of `tm_end` made by the caller of the library. -/
inductive api_call where
  | begin_tx (is_ro : Bool)
  | end_tx (tx : Nat)
deriving DecidableEq, Repr

/-- The state after a call of `tm_begin` or `tm_end`: neither function reads
or writes a variable of the Batcher, and neither calls `enter_epoch` or
`leave_epoch`. -/
def run_call (s : tm_system) : api_call → tm_system
  | api_call.begin_tx is_ro =>
    let _tx := tm_begin s.shared is_ro
    s
  | api_call.end_tx tx => { s with shared := (tm_end s.shared tx).2 }

/-- The state after a list of `tm_begin` and `tm_end` calls. -/
def run_calls (s : tm_system) (calls : List api_call) : tm_system :=
  calls.foldl run_call s

/-- The number of transactions begun with `tm_begin` and not yet ended with
`tm_end` after a list of calls. -/
def live_transactions : List api_call → Int
  | [] => 0
  | api_call.begin_tx _ :: calls => live_transactions calls + 1
  | api_call.end_tx _ :: calls => live_transactions calls - 1

/-- A region of one word whose alignment is `24`, twice `sizeof(struct word)`;
`copy_A` of every cell holds `5` and all flags are clear. -/
def region24 : region :=
  { start := 8192, mem := fun _ => ⟨false, false, false, 5, 0⟩, allocs := Alloc.success,
    size := 24, align := 24 }

/-- A call of `tm_read_word` or of `tm_write_word`, with its arguments. -/
inductive word_op where
  | read_word (index size : Nat) (target : uint) (is_ro : Bool)
  | write_word (index : Nat) (source : uint) (size : Nat) (is_ro : Bool)
deriving DecidableEq, Repr

/-- The region after a call of `tm_read_word` or `tm_write_word`, whatever the
call returns. -/
def run_op (shared : region) : word_op → region
  | word_op.read_word index size target is_ro =>
    (tm_read_word shared index size target is_ro).2.2
  | word_op.write_word index source size is_ro =>
    (tm_write_word shared index source size is_ro).2

/-- The region after a list of `tm_read_word` and `tm_write_word` calls. -/
def run_ops (shared : region) (ops : List word_op) : region :=
  ops.foldl run_op shared

/-- A thread that has passed the tests of its call and will return `true`, or
has done so. -/
def committed : write_pc → Bool
  | write_pc.load_valid _ => true
  | write_pc.store_copy _ _ => true
  | write_pc.store_written _ => true
  | write_pc.store_accessed => true
  | write_pc.done true => true
  | _ => false

/-- An upper bound on the number of atomic steps a thread has left. -/
def write_rank : write_pc → Nat
  | write_pc.load_written => 6
  | write_pc.load_accessed _ => 5
  | write_pc.load_valid _ => 4
  | write_pc.store_copy _ _ => 3
  | write_pc.store_written _ => 2
  | write_pc.store_accessed => 1
  | write_pc.done _ => 0

/-- What a thread at `pc` knows about the word `w` and about the other
thread. -/
def thread_inv (w : word) (pc other : write_pc) : Prop :=
  match pc with
  | write_pc.load_written => True
  | write_pc.load_accessed true => committed other = true
  | write_pc.load_accessed false => True
  | write_pc.load_valid true => w.accessed = true
  | write_pc.load_valid false => True
  | write_pc.store_copy true v => w.accessed = true ∧ v = w.valid
  | write_pc.store_copy false v => v = w.valid
  | write_pc.store_written true => w.accessed = true
  | write_pc.store_written false => True
  | write_pc.store_accessed => w.written = true
  | write_pc.done true => w.written = true ∧ w.accessed = true
  | write_pc.done false => committed other = true

/-- The invariant of two racing `tm_write_word` calls started on the word
`w0`. -/
def race_inv (w0 : word) (s : race_state) : Prop :=
  s.target.valid = w0.valid ∧ valid_copy s.target = valid_copy w0
  ∧ (s.target.written = true → committed s.pc1 = true ∨ committed s.pc2 = true)
  ∧ (s.target.accessed = true → s.pc1 = write_pc.done true ∨ s.pc2 = write_pc.done true)
  ∧ thread_inv s.target s.pc1 s.pc2 ∧ thread_inv s.target s.pc2 s.pc1

/-! ## Word-level lemmas -/

theorem find_of_in_bounds {shared : region} {index : Nat} (h : in_bounds shared index) :
    tm_find_word_by_index shared index = some (slot shared index) := by
  unfold in_bounds at h
  unfold tm_find_word_by_index slot
  rw [if_neg (Nat.not_le.mpr h)]

theorem find_of_not_in_bounds {shared : region} {index : Nat} (h : ¬ in_bounds shared index) :
    tm_find_word_by_index shared index = none := by
  unfold in_bounds at h
  unfold tm_find_word_by_index
  rw [if_pos (Nat.not_lt.mp h)]

theorem read_word_ro {shared : region} {index : Nat} (size : Nat) (target : uint)
    (h : in_bounds shared index) :
    tm_read_word shared index size target true
      = (true, valid_copy (shared.mem (slot shared index)), shared) := by
  simp [tm_read_word, find_of_in_bounds h, valid_copy]

theorem read_word_first_touch {shared : region} {index : Nat} (size : Nat) (target : uint)
    (h : in_bounds shared index) (hw : (shared.mem (slot shared index)).written = false) :
    tm_read_word shared index size target false
      = (true, valid_copy (shared.mem (slot shared index)),
          set_word shared (slot shared index)
            { shared.mem (slot shared index) with accessed := true }) := by
  simp [tm_read_word, find_of_in_bounds h, valid_copy, hw]

theorem read_word_written {shared : region} {index : Nat} (size : Nat) (target : uint)
    (h : in_bounds shared index) (hw : (shared.mem (slot shared index)).written = true) :
    tm_read_word shared index size target false
      = if (shared.mem (slot shared index)).accessed then
          (true, nonvalid_copy (shared.mem (slot shared index)), shared)
        else (false, target, shared) := by
  simp [tm_read_word, find_of_in_bounds h, nonvalid_copy, hw]

theorem write_word_untouched {shared : region} {index : Nat} (v : uint) (size : Nat)
    (h : in_bounds shared index) (ha : (shared.mem (slot shared index)).accessed = false)
    (hw : (shared.mem (slot shared index)).written = false) :
    tm_write_word shared index v size false
      = (true, set_word shared (slot shared index)
          (if (shared.mem (slot shared index)).valid then
            { shared.mem (slot shared index) with
                copy_A := v, written := true, accessed := true }
           else
            { shared.mem (slot shared index) with
                copy_B := v, written := true, accessed := true })) := by
  simp [tm_write_word, find_of_in_bounds h, ha, hw]

theorem write_word_written {shared : region} {index : Nat} (v : uint) (size : Nat)
    (h : in_bounds shared index) (hw : (shared.mem (slot shared index)).written = true) :
    tm_write_word shared index v size false
      = if (shared.mem (slot shared index)).accessed then
          (true, set_word shared (slot shared index)
            (if (shared.mem (slot shared index)).valid then
              { shared.mem (slot shared index) with copy_A := v, written := true }
             else
              { shared.mem (slot shared index) with copy_B := v, written := true }))
        else (false, shared) := by
  simp [tm_write_word, find_of_in_bounds h, hw]

@[simp] theorem set_word_mem_same (shared : region) (p : Nat) (w : word) :
    (set_word shared p w).mem p = w := by
  simp [set_word]

theorem set_word_mem_other (shared : region) {p k : Nat} (w : word) (h : k ≠ p) :
    (set_word shared p w).mem k = shared.mem k := by
  simp [set_word, Function.update_noteq h]

@[simp] theorem set_word_size (shared : region) (p : Nat) (w : word) :
    (set_word shared p w).size = shared.size := rfl

@[simp] theorem set_word_align (shared : region) (p : Nat) (w : word) :
    (set_word shared p w).align = shared.align := rfl

@[simp] theorem set_word_slot (shared : region) (p : Nat) (w : word) (index : Nat) :
    slot (set_word shared p w) index = slot shared index := rfl

theorem set_word_in_bounds (shared : region) (p : Nat) (w : word) (index : Nat) :
    in_bounds (set_word shared p w) index ↔ in_bounds shared index := Iff.rfl

/-- What a successful read-write `tm_write_word` leaves behind. -/
theorem write_word_success {shared : region} {index : Nat} {v : uint} {size : Nat}
    (hs : (tm_write_word shared index v size false).1 = true) :
    in_bounds shared index
    ∧ ((tm_write_word shared index v size false).2.mem (slot shared index)).written = true
    ∧ ((tm_write_word shared index v size false).2.mem (slot shared index)).accessed = true
    ∧ nonvalid_copy ((tm_write_word shared index v size false).2.mem (slot shared index)) = v := by
  have h : in_bounds shared index := by
    by_contra hn
    simp [tm_write_word, find_of_not_in_bounds hn] at hs
  refine ⟨h, ?_⟩
  revert hs
  simp only [tm_write_word, find_of_in_bounds h]
  rcases hw : shared.mem (slot shared index) with ⟨va, ac, wr, a, b⟩
  cases va <;> cases ac <;> cases wr <;> simp [nonvalid_copy]

/-- A `tm_write_word` call, whatever its arguments and its outcome, keeps
`size` and `align`, and in every cell the valid bit and the copy it selects. -/
theorem write_word_frame (shared : region) (index : Nat) (v : uint) (size : Nat) (is_ro : Bool) :
    (tm_write_word shared index v size is_ro).2.size = shared.size
    ∧ (tm_write_word shared index v size is_ro).2.align = shared.align
    ∧ ∀ k, ((tm_write_word shared index v size is_ro).2.mem k).valid = (shared.mem k).valid
        ∧ valid_copy ((tm_write_word shared index v size is_ro).2.mem k)
            = valid_copy (shared.mem k) := by
  unfold tm_write_word
  cases hf : tm_find_word_by_index shared index with
  | none => simp
  | some p =>
    rcases hw : shared.mem p with ⟨va, ac, wr, a, b⟩
    cases is_ro <;> cases va <;> cases ac <;> cases wr <;>
      simp only [hw, Bool.false_eq_true, if_false, if_true, set_word_size, set_word_align,
        true_and] <;>
      intro k <;> by_cases hk : k = p <;>
      simp [hk, hw, valid_copy, set_word_mem_other]

/-- A list of `tm_write_word` calls keeps `size` and `align`, and in every cell
the valid bit and the copy it selects. -/
theorem write_word_seq_frame (ops : List (Nat × uint × Nat × Bool)) (shared : region) :
    (write_word_seq shared ops).size = shared.size
    ∧ (write_word_seq shared ops).align = shared.align
    ∧ ∀ k, ((write_word_seq shared ops).mem k).valid = (shared.mem k).valid
        ∧ valid_copy ((write_word_seq shared ops).mem k) = valid_copy (shared.mem k) := by
  induction ops generalizing shared with
  | nil => simp [write_word_seq]
  | cons op ops ih =>
    obtain ⟨index, v, size, is_ro⟩ := op
    have h1 := write_word_frame shared index v size is_ro
    have h2 := ih (tm_write_word shared index v size is_ro).2
    simp only [write_word_seq]
    refine ⟨h2.1.trans h1.1, h2.2.1.trans h1.2.1, fun k => ?_⟩
    exact ⟨(h2.2.2 k).1.trans (h1.2.2 k).1, (h2.2.2 k).2.trans (h1.2.2 k).2⟩

/-- The outcome of a read-only `tm_read_word` is determined by `size`, `align`
and the copies selected by the valid bits. -/
theorem read_word_ro_congr {r1 r2 : region} (hsize : r1.size = r2.size)
    (halign : r1.align = r2.align)
    (hcopy : ∀ k, valid_copy (r1.mem k) = valid_copy (r2.mem k))
    (index size : Nat) (target : uint) :
    (tm_read_word r1 index size target true).1 = (tm_read_word r2 index size target true).1
    ∧ (tm_read_word r1 index size target true).2.1
        = (tm_read_word r2 index size target true).2.1 := by
  by_cases h : in_bounds r2 index
  · have h1 : in_bounds r1 index := by
      unfold in_bounds at h ⊢
      rw [hsize, halign]; exact h
    rw [read_word_ro size target h, read_word_ro size target h1]
    have hslot : slot r1 index = slot r2 index := by unfold slot; rw [halign]
    simp only [true_and, hslot]
    exact hcopy _
  · have h1 : ¬ in_bounds r1 index := by
      unfold in_bounds at h ⊢
      rw [hsize, halign]; exact h
    simp [tm_read_word, find_of_not_in_bounds h, find_of_not_in_bounds h1]

/-! ## The loops of `tm_read` and `tm_write` -/

/-- In a region whose size is `k` words of a positive alignment and fits
`size_t`, the products the loops compute for `index ≤ k` do not wrap. -/
theorem index_mul_align_mod {shared : region} {k index : Nat}
    (hsize : shared.size = k * shared.align) (hlt : shared.size < 2 ^ 64) (hi : index ≤ k) :
    (index * shared.align) % 2 ^ 64 = index * shared.align := by
  apply Nat.mod_eq_of_lt
  have : index * shared.align ≤ k * shared.align := Nat.mul_le_mul_right _ hi
  omega

/-- The loop of `tm_read`, given enough fuel, leaves with `true`, does not
change the region, stores in the cell `align * (i - index)` past `target` the
copy selected by the valid bit of word `i`, and leaves the cells before
`target` alone. -/
theorem tm_read_loop_spec (shared : region) (k : Nat) (halign : 0 < shared.align)
    (hsize : shared.size = k * shared.align) (hlt : shared.size < 2 ^ 64) :
    ∀ (fuel index size : Nat) (buf : Nat → uint) (target : Nat),
      index ≤ k → k - index < fuel →
      ∃ buf1, tm_read_loop fuel shared index size buf target = some (true, buf1, shared)
        ∧ (∀ t, t < target → buf1 t = buf t)
        ∧ (∀ i, index ≤ i → i < k →
            buf1 (target + (i - index) * shared.align)
              = valid_copy (shared.mem (i * shared.align))) := by
  intro fuel
  induction fuel with
  | zero => intro index size buf target _ hf; omega
  | succ fuel ih =>
    intro index size buf target hi hf
    have hmod := index_mul_align_mod hsize hlt hi
    by_cases hik : index < k
    · have hlt2 : index * shared.align < shared.size := by
        rw [hsize]; exact Nat.mul_lt_mul_of_pos_right hik halign
      have hb : in_bounds shared index := by unfold in_bounds; rw [hmod]; exact hlt2
      have hk64 : k < 2 ^ 64 := by
        have : k * 1 ≤ k * shared.align := Nat.mul_le_mul_left _ halign
        omega
      have hsucc : (index + 1) % 2 ^ 64 = index + 1 := Nat.mod_eq_of_lt (by omega)
      have hslot : slot shared index = index * shared.align := hmod
      obtain ⟨buf1, hrun, hbefore, hvals⟩ :=
        ih (index + 1) size
          (Function.update buf target (valid_copy (shared.mem (slot shared index))))
          (target + shared.align) (by omega) (by omega)
      refine ⟨buf1, ?_, ?_, ?_⟩
      · rw [tm_read_loop, hmod, if_pos hlt2, read_word_ro size (buf target) hb]
        simp only [hsucc]
        exact hrun
      · intro t ht
        rw [hbefore t (by omega), Function.update_noteq (by omega)]
      · intro i hi1 hi2
        by_cases hii : i = index
        · subst hii
          rw [Nat.sub_self, Nat.zero_mul, Nat.add_zero, hbefore _ (by omega),
            Function.update_same, hslot]
        · have hstep : target + (i - index) * shared.align
              = target + shared.align + (i - (index + 1)) * shared.align := by
            have : i - index = (i - (index + 1)) + 1 := by omega
            rw [this, Nat.add_mul]; omega
          rw [hstep]
          exact hvals i (by omega) hi2
    · have hik2 : index = k := by omega
      refine ⟨buf, ?_, fun _ _ => rfl, fun i h1 h2 => by omega⟩
      rw [tm_read_loop, hmod, if_neg]
      rw [hsize, hik2]; exact Nat.lt_irrefl _

/-- The loop of `tm_write`, whenever it returns, has kept `size` and `align`,
and in every cell the valid bit and the copy it selects. -/
theorem tm_write_loop_frame :
    ∀ (fuel : Nat) (shared : region) (index : Nat) (v : uint) (size : Nat)
      (res : Bool × region),
      tm_write_loop fuel shared index v size = some res →
      res.2.size = shared.size ∧ res.2.align = shared.align
      ∧ ∀ k, (res.2.mem k).valid = (shared.mem k).valid
          ∧ valid_copy (res.2.mem k) = valid_copy (shared.mem k) := by
  intro fuel
  induction fuel with
  | zero => intro shared index v size res h; simp [tm_write_loop] at h
  | succ fuel ih =>
    intro shared index v size res h
    rw [tm_write_loop] at h
    split at h
    · have hf := write_word_frame shared index v size false
      rcases hres : tm_write_word shared index v size false with ⟨ok, r1⟩
      rw [hres] at h hf
      cases ok
      · simp only [Option.some.injEq] at h
        subst h
        exact hf
      · simp only at h hf
        have h2 := ih r1 _ v size res h
        refine ⟨h2.1.trans hf.1, h2.2.1.trans hf.2.1, fun k => ?_⟩
        exact ⟨(h2.2.2 k).1.trans (hf.2.2 k).1, (h2.2.2 k).2.trans (hf.2.2 k).2⟩
    · simp only [Option.some.injEq] at h
      subst h
      exact ⟨rfl, rfl, fun _ => ⟨rfl, rfl⟩⟩

/-! ## Properties of the word operations -/

/-- C7. For every in-bounds word, whatever its flags, a read-only
`tm_read_word` returns `true`, stores the copy selected by the valid bit
(`copy_B` if `valid` is set, `copy_A` otherwise) in the target cell, and leaves
the whole region, hence `valid`, `accessed`, `written`, `copy_A` and `copy_B`
of the word, unchanged. -/
theorem read_only_read_word_frame (shared : region) (index size : Nat) (target : uint)
    (h : in_bounds shared index) :
    (tm_read_word shared index size target true).1 = true
    ∧ (tm_read_word shared index size target true).2.1
        = (if (shared.mem (slot shared index)).valid
            then (shared.mem (slot shared index)).copy_B
            else (shared.mem (slot shared index)).copy_A)
    ∧ (tm_read_word shared index size target true).2.2 = shared := by
  rw [read_word_ro size target h]
  exact ⟨rfl, rfl, rfl⟩

/-- Witness for C7 on a word whose flags are all set. -/
theorem read_only_read_word_frame_witness :
    in_bounds (set_word region5 0 ⟨true, true, true, 3, 4⟩) 0
    ∧ (tm_read_word (set_word region5 0 ⟨true, true, true, 3, 4⟩) 0 4 9 true).1 = true
    ∧ (tm_read_word (set_word region5 0 ⟨true, true, true, 3, 4⟩) 0 4 9 true).2.1
        = (if ((set_word region5 0 ⟨true, true, true, 3, 4⟩).mem
                (slot (set_word region5 0 ⟨true, true, true, 3, 4⟩) 0)).valid
            then ((set_word region5 0 ⟨true, true, true, 3, 4⟩).mem
                (slot (set_word region5 0 ⟨true, true, true, 3, 4⟩) 0)).copy_B
            else ((set_word region5 0 ⟨true, true, true, 3, 4⟩).mem
                (slot (set_word region5 0 ⟨true, true, true, 3, 4⟩) 0)).copy_A)
    ∧ (tm_read_word (set_word region5 0 ⟨true, true, true, 3, 4⟩) 0 4 9 true).2.2
        = set_word region5 0 ⟨true, true, true, 3, 4⟩ :=
  ⟨by decide, read_only_read_word_frame _ 0 4 9 (by decide)⟩

/-- C8. First-touch read: for every in-bounds word with `written = false`, a
read-write `tm_read_word` returns `true`, stores the copy selected by the valid
bit in the target cell, sets `accessed`, and leaves `valid`, `written`,
`copy_A` and `copy_B` of the word unchanged. -/
theorem first_touch_read_word (shared : region) (index size : Nat) (target : uint)
    (h : in_bounds shared index) (hw : (shared.mem (slot shared index)).written = false) :
    (tm_read_word shared index size target false).1 = true
    ∧ (tm_read_word shared index size target false).2.1
        = (if (shared.mem (slot shared index)).valid
            then (shared.mem (slot shared index)).copy_B
            else (shared.mem (slot shared index)).copy_A)
    ∧ ((tm_read_word shared index size target false).2.2.mem (slot shared index)).accessed = true
    ∧ ((tm_read_word shared index size target false).2.2.mem (slot shared index)).valid
        = (shared.mem (slot shared index)).valid
    ∧ ((tm_read_word shared index size target false).2.2.mem (slot shared index)).written
        = (shared.mem (slot shared index)).written
    ∧ ((tm_read_word shared index size target false).2.2.mem (slot shared index)).copy_A
        = (shared.mem (slot shared index)).copy_A
    ∧ ((tm_read_word shared index size target false).2.2.mem (slot shared index)).copy_B
        = (shared.mem (slot shared index)).copy_B := by
  rw [read_word_first_touch size target h hw]
  simp [valid_copy]

/-- Witness for C8 on the one-word region whose word is untouched. -/
theorem first_touch_read_word_witness :
    in_bounds region5 0
    ∧ (region5.mem (slot region5 0)).written = false
    ∧ (tm_read_word region5 0 4 9 false).1 = true
    ∧ (tm_read_word region5 0 4 9 false).2.1
        = (if (region5.mem (slot region5 0)).valid
            then (region5.mem (slot region5 0)).copy_B
            else (region5.mem (slot region5 0)).copy_A)
    ∧ ((tm_read_word region5 0 4 9 false).2.2.mem (slot region5 0)).accessed = true
    ∧ ((tm_read_word region5 0 4 9 false).2.2.mem (slot region5 0)).valid
        = (region5.mem (slot region5 0)).valid
    ∧ ((tm_read_word region5 0 4 9 false).2.2.mem (slot region5 0)).written
        = (region5.mem (slot region5 0)).written
    ∧ ((tm_read_word region5 0 4 9 false).2.2.mem (slot region5 0)).copy_A
        = (region5.mem (slot region5 0)).copy_A
    ∧ ((tm_read_word region5 0 4 9 false).2.2.mem (slot region5 0)).copy_B
        = (region5.mem (slot region5 0)).copy_B :=
  ⟨by decide, by decide, first_touch_read_word region5 0 4 9 (by decide) (by decide)⟩

/-- C6. First writer wins: for every in-bounds word with `accessed = false` and
`written = false` and every value `v`, a read-write `tm_write_word` of `v`
returns `true`, and afterwards the copy not selected by the valid bit (`copy_A`
if `valid` is set, `copy_B` otherwise) equals `v`, `written = true` and
`accessed = true`. -/
theorem first_writer_wins (shared : region) (index : Nat) (v : uint) (size : Nat)
    (h : in_bounds shared index)
    (ha : (shared.mem (slot shared index)).accessed = false)
    (hw : (shared.mem (slot shared index)).written = false) :
    (tm_write_word shared index v size false).1 = true
    ∧ (if (shared.mem (slot shared index)).valid
        then ((tm_write_word shared index v size false).2.mem (slot shared index)).copy_A
        else ((tm_write_word shared index v size false).2.mem (slot shared index)).copy_B) = v
    ∧ ((tm_write_word shared index v size false).2.mem (slot shared index)).written = true
    ∧ ((tm_write_word shared index v size false).2.mem (slot shared index)).accessed = true := by
  rw [write_word_untouched v size h ha hw]
  cases hv : (shared.mem (slot shared index)).valid <;> simp

/-- Witness for C6 on the one-word region whose word is untouched. -/
theorem first_writer_wins_witness :
    in_bounds region5 0
    ∧ (region5.mem (slot region5 0)).accessed = false
    ∧ (region5.mem (slot region5 0)).written = false
    ∧ (tm_write_word region5 0 7 4 false).1 = true
    ∧ (if (region5.mem (slot region5 0)).valid
        then ((tm_write_word region5 0 7 4 false).2.mem (slot region5 0)).copy_A
        else ((tm_write_word region5 0 7 4 false).2.mem (slot region5 0)).copy_B) = 7
    ∧ ((tm_write_word region5 0 7 4 false).2.mem (slot region5 0)).written = true
    ∧ ((tm_write_word region5 0 7 4 false).2.mem (slot region5 0)).accessed = true :=
  ⟨by decide, by decide, by decide,
    first_writer_wins region5 0 7 4 (by decide) (by decide) (by decide)⟩

/-- C5. Read-your-own-write at word level: for every word with
`accessed = false` and `written = false`, every value `v` and either setting of
the valid bit, if a read-write `tm_write_word` of `v` returns `true`, then a
read-write `tm_read_word` of the same word in the resulting region returns
`true` and stores `v` in the target cell. -/
theorem read_your_own_write (shared : region) (index : Nat) (v : uint) (size size2 : Nat)
    (target : uint)
    (ha : (shared.mem (slot shared index)).accessed = false)
    (hw : (shared.mem (slot shared index)).written = false)
    (hs : (tm_write_word shared index v size false).1 = true) :
    (tm_read_word (tm_write_word shared index v size false).2 index size2 target false).1 = true
    ∧ (tm_read_word (tm_write_word shared index v size false).2 index size2 target false).2.1
        = v := by
  have h : in_bounds shared index := by
    by_contra hn
    simp [tm_write_word, find_of_not_in_bounds hn] at hs
  rw [write_word_untouched v size h ha hw]
  have h2 : in_bounds (set_word shared (slot shared index)
      (if (shared.mem (slot shared index)).valid then
        { shared.mem (slot shared index) with copy_A := v, written := true, accessed := true }
       else
        { shared.mem (slot shared index) with copy_B := v, written := true, accessed := true }))
      index := h
  rw [read_word_written size2 target h2 (by
    cases hv : (shared.mem (slot shared index)).valid <;> simp)]
  cases hv : (shared.mem (slot shared index)).valid <;> simp [nonvalid_copy, hv]

/-- Witness for C5 on a word whose valid bit is set. -/
theorem read_your_own_write_witness :
    ((set_word region5 0 ⟨true, false, false, 3, 4⟩).mem
        (slot (set_word region5 0 ⟨true, false, false, 3, 4⟩) 0)).accessed = false
    ∧ ((set_word region5 0 ⟨true, false, false, 3, 4⟩).mem
        (slot (set_word region5 0 ⟨true, false, false, 3, 4⟩) 0)).written = false
    ∧ (tm_write_word (set_word region5 0 ⟨true, false, false, 3, 4⟩) 0 7 4 false).1 = true
    ∧ (tm_read_word (tm_write_word (set_word region5 0 ⟨true, false, false, 3, 4⟩) 0 7 4 false).2
        0 4 9 false).1 = true
    ∧ (tm_read_word (tm_write_word (set_word region5 0 ⟨true, false, false, 3, 4⟩) 0 7 4 false).2
        0 4 9 false).2.1 = 7 :=
  ⟨by decide, by decide, by decide,
    read_your_own_write (set_word region5 0 ⟨true, false, false, 3, 4⟩) 0 7 4 4 9
      (by decide) (by decide) (by decide)⟩

/-- C2, as stated, fails. On the one-word region a first read-write
`tm_write_word` of `1` returns `true` and sets `written`; two `tm_begin` calls
for read-write transactions return the same handle, and `tm_write_word` takes
no handle; a second read-write `tm_write_word` of `2` to the same word returns
`true` as well and changes the word. -/
theorem second_writer_not_aborted :
    (tm_write_word region5 0 1 4 false).1 = true
    ∧ ((tm_write_word region5 0 1 4 false).2.mem (slot region5 0)).written = true
    ∧ tm_begin (tm_write_word region5 0 1 4 false).2 false = tm_begin region5 false
    ∧ (tm_write_word (tm_write_word region5 0 1 4 false).2 0 2 4 false).1 = true
    ∧ (tm_write_word (tm_write_word region5 0 1 4 false).2 0 2 4 false).2.mem (slot region5 0)
        ≠ (tm_write_word region5 0 1 4 false).2.mem (slot region5 0) := by
  decide

/-- C2, amended. If a read-write `tm_write_word` to a word has returned `true`,
then every later read-write `tm_write_word` of a value `v2` to the same word,
from whichever transaction (the operation receives no transaction identity),
returns `true` too, stores `v2` in the copy not selected by the valid bit and
keeps `written` and `accessed` set; the valid bit and the copy it selects stay
as they were. -/
theorem write_after_write_succeeds (shared : region) (index : Nat) (v : uint) (size : Nat)
    (v2 : uint) (size2 : Nat)
    (hs : (tm_write_word shared index v size false).1 = true) :
    (tm_write_word (tm_write_word shared index v size false).2 index v2 size2 false).1 = true
    ∧ nonvalid_copy ((tm_write_word (tm_write_word shared index v size false).2
        index v2 size2 false).2.mem (slot shared index)) = v2
    ∧ ((tm_write_word (tm_write_word shared index v size false).2
        index v2 size2 false).2.mem (slot shared index)).written = true
    ∧ ((tm_write_word (tm_write_word shared index v size false).2
        index v2 size2 false).2.mem (slot shared index)).accessed = true
    ∧ ((tm_write_word (tm_write_word shared index v size false).2
        index v2 size2 false).2.mem (slot shared index)).valid
        = ((tm_write_word shared index v size false).2.mem (slot shared index)).valid
    ∧ valid_copy ((tm_write_word (tm_write_word shared index v size false).2
        index v2 size2 false).2.mem (slot shared index))
        = valid_copy ((tm_write_word shared index v size false).2.mem (slot shared index)) := by
  obtain ⟨h, hw, ha, -⟩ := write_word_success hs
  have hf := write_word_frame shared index v size false
  generalize (tm_write_word shared index v size false).2 = r1 at hw ha hf ⊢
  have h1 : in_bounds r1 index := by
    unfold in_bounds at h ⊢
    rw [hf.1, hf.2.1]; exact h
  have hslot : slot r1 index = slot shared index := by unfold slot; rw [hf.2.1]
  have hf2 := (write_word_frame r1 index v2 size2 false).2.2 (slot shared index)
  have key := write_word_written v2 size2 h1 (hslot ▸ hw)
  rw [hslot, ha, if_pos rfl] at key
  refine ⟨?_, ?_, ?_, ?_, hf2.1, hf2.2⟩
  · rw [key]
  all_goals
    rw [key]
    cases hv : (r1.mem (slot shared index)).valid <;> simp [nonvalid_copy, hv, ha]

/-- Witness for the amended C2 on the one-word region. -/
theorem write_after_write_succeeds_witness :
    (tm_write_word region5 0 1 4 false).1 = true
    ∧ (tm_write_word (tm_write_word region5 0 1 4 false).2 0 2 4 false).1 = true
    ∧ nonvalid_copy ((tm_write_word (tm_write_word region5 0 1 4 false).2
        0 2 4 false).2.mem (slot region5 0)) = 2 :=
  ⟨by decide,
    (write_after_write_succeeds region5 0 1 4 2 4 (by decide)).1,
    (write_after_write_succeeds region5 0 1 4 2 4 (by decide)).2.1⟩

/-- C3, evaluated on an untouched word of the one-word region. The first-touch
read-write `tm_read_word` returns `true` and sets `accessed`; no other call
touches the word; the read-write `tm_write_word` that follows returns `false`
and leaves the region as the read left it. -/
theorem read_then_write_aborts :
    (region5.mem (slot region5 0)).accessed = false
    ∧ (region5.mem (slot region5 0)).written = false
    ∧ (tm_read_word region5 0 4 9 false).1 = true
    ∧ ((tm_read_word region5 0 4 9 false).2.2.mem (slot region5 0)).accessed = true
    ∧ (tm_write_word (tm_read_word region5 0 4 9 false).2.2 0 7 4 false).1 = false
    ∧ (tm_write_word (tm_read_word region5 0 4 9 false).2.2 0 7 4 false).2.mem (slot region5 0)
        = (tm_read_word region5 0 4 9 false).2.2.mem (slot region5 0) := by
  decide

/-- C4, as stated, fails. On the one-word region, whose committed value is `5`,
a read-write `tm_write_word` of `7` returns `true` and sets `written`; two
`tm_begin` calls for read-write transactions return the same handle, and
`tm_read_word` takes no handle; a read-write `tm_read_word` of the same word
then returns `true` and stores the speculative value `7` in the target cell. -/
theorem other_reader_not_aborted :
    (tm_write_word region5 0 7 4 false).1 = true
    ∧ ((tm_write_word region5 0 7 4 false).2.mem (slot region5 0)).written = true
    ∧ tm_begin (tm_write_word region5 0 7 4 false).2 false = tm_begin region5 false
    ∧ (tm_read_word (tm_write_word region5 0 7 4 false).2 0 4 9 false).1 = true
    ∧ (tm_read_word (tm_write_word region5 0 7 4 false).2 0 4 9 false).2.1 = 7 := by
  decide

/-- C4, amended. If a read-write `tm_write_word` of `v` to a word has returned
`true`, then a read-write `tm_read_word` of that word, from whichever
transaction (the operation receives no transaction identity), returns `true`,
stores in the target cell the speculative value `v`, which is the copy not
selected by the valid bit, and leaves the region unchanged. -/
theorem read_after_write_succeeds (shared : region) (index : Nat) (v : uint) (size size2 : Nat)
    (target : uint)
    (hs : (tm_write_word shared index v size false).1 = true) :
    (tm_read_word (tm_write_word shared index v size false).2 index size2 target false).1 = true
    ∧ (tm_read_word (tm_write_word shared index v size false).2 index size2 target false).2.1
        = v
    ∧ nonvalid_copy ((tm_write_word shared index v size false).2.mem (slot shared index)) = v
    ∧ (tm_read_word (tm_write_word shared index v size false).2 index size2 target false).2.2
        = (tm_write_word shared index v size false).2 := by
  obtain ⟨h, hw, ha, hv⟩ := write_word_success hs
  have hf := write_word_frame shared index v size false
  generalize (tm_write_word shared index v size false).2 = r1 at hw ha hv hf ⊢
  have h1 : in_bounds r1 index := by
    unfold in_bounds at h ⊢
    rw [hf.1, hf.2.1]; exact h
  have hslot : slot r1 index = slot shared index := by unfold slot; rw [hf.2.1]
  have key := read_word_written size2 target h1 (hslot ▸ hw)
  rw [hslot, ha, if_pos rfl, hv] at key
  rw [key]
  exact ⟨rfl, rfl, hv, rfl⟩

/-- Witness for the amended C4 on the one-word region. -/
theorem read_after_write_succeeds_witness :
    (tm_write_word region5 0 7 4 false).1 = true
    ∧ (tm_read_word (tm_write_word region5 0 7 4 false).2 0 4 9 false).1 = true
    ∧ (tm_read_word (tm_write_word region5 0 7 4 false).2 0 4 9 false).2.1 = 7 :=
  ⟨by decide,
    (read_after_write_succeeds region5 0 7 4 4 9 (by decide)).1,
    (read_after_write_succeeds region5 0 7 4 4 9 (by decide)).2.1⟩

/-- C9. Writes land only in the non-valid copy: a `tm_write_word` call,
whatever the word, the value, the flags and the outcome, changes in no cell the
valid bit or the copy selected by the valid bit; consequently a read-only
`tm_read_word` of any word returns the same result and stores the same value
before and after any list of `tm_write_word` calls. -/
theorem writes_keep_valid_copy :
    (∀ (shared : region) (index : Nat) (v : uint) (size : Nat) (is_ro : Bool) (k : Nat),
      ((tm_write_word shared index v size is_ro).2.mem k).valid = (shared.mem k).valid
      ∧ (if ((tm_write_word shared index v size is_ro).2.mem k).valid
          then ((tm_write_word shared index v size is_ro).2.mem k).copy_B
          else ((tm_write_word shared index v size is_ro).2.mem k).copy_A)
        = (if (shared.mem k).valid then (shared.mem k).copy_B else (shared.mem k).copy_A))
    ∧ (∀ (shared : region) (ops : List (Nat × uint × Nat × Bool)) (index size : Nat)
        (target : uint),
      (tm_read_word (write_word_seq shared ops) index size target true).1
        = (tm_read_word shared index size target true).1
      ∧ (tm_read_word (write_word_seq shared ops) index size target true).2.1
        = (tm_read_word shared index size target true).2.1) := by
  constructor
  · intro shared index v size is_ro k
    exact (write_word_frame shared index v size is_ro).2.2 k
  · intro shared ops index size target
    have hf := write_word_seq_frame ops shared
    exact read_word_ro_congr hf.1 hf.2.1 (fun k => (hf.2.2 k).2) index size target

/-! ## Properties of `tm_read`, `tm_write` and `tm_end` -/

/-- C10. A read-only transaction never aborts on a read: for every region
whose size is a positive multiple `k * align` of its alignment (and fits
`size_t`), whatever the flags and copies of its words, `tm_read` called with a
handle that `tm_begin` returned for `is_ro = true` returns `true`, given fuel
for its `k` rounds, and leaves the region unchanged. -/
theorem read_only_tm_read_succeeds (shared : region) (k fuel : Nat) (source size : Nat)
    (target : Nat → uint)
    (halign : 0 < shared.align) (hk : 0 < k) (hsize : shared.size = k * shared.align)
    (hlt : shared.size < 2 ^ 64) (hfuel : k < fuel) :
    ∃ buf1, tm_read fuel shared (tm_begin shared true) source size target
      = some (true, buf1, shared) := by
  have _ := hk
  obtain ⟨buf1, hrun, -, -⟩ :=
    tm_read_loop_spec shared k halign hsize hlt fuel 0 size target 0 (Nat.zero_le _) (by omega)
  exact ⟨buf1, hrun⟩

/-- Witness for C10 on the one-word region whose word carries the flags and the
speculative value of a write by another transaction. -/
theorem read_only_tm_read_succeeds_witness :
    ∃ buf1, tm_read 2 (set_word region5 0 ⟨false, true, true, 5, 7⟩)
        (tm_begin (set_word region5 0 ⟨false, true, true, 5, 7⟩) true) 0 1 (fun _ => 9)
      = some (true, buf1, set_word region5 0 ⟨false, true, true, 5, 7⟩) :=
  read_only_tm_read_succeeds (set_word region5 0 ⟨false, true, true, 5, 7⟩) 1 2 0 1 (fun _ => 9)
    (by decide) (by decide) (by decide) (by decide) (by decide)

/-- C1, as stated, fails. On the one-word region, whose committed value is `5`,
a read-write transaction's `tm_write` of `7` returns `true` and its `tm_end`
returns `true`; a `tm_read` by a transaction begun afterwards returns `true`
and stores `5`, not `7`, in the private buffer. -/
theorem committed_write_not_visible :
    tm_write 2 region5 (tm_begin region5 false) (fun _ => 7) 1 0
      = some (true, set_word region5 0 ⟨false, true, true, 5, 7⟩)
    ∧ tm_end (set_word region5 0 ⟨false, true, true, 5, 7⟩) (tm_begin region5 false)
      = (true, set_word region5 0 ⟨false, true, true, 5, 7⟩)
    ∧ (tm_read 2 (set_word region5 0 ⟨false, true, true, 5, 7⟩)
        (tm_begin (set_word region5 0 ⟨false, true, true, 5, 7⟩) true) 0 1 (fun _ => 9)).map
          (fun res => (res.1, res.2.1 0))
      = some (true, 5) := by
  refine ⟨rfl, rfl, ?_⟩
  decide

/-- C1, amended. `tm_end` publishes nothing. For every region whose size is
`k * align` with `align` positive (and fits `size_t`): if a `tm_write` returns
`true`, the `tm_end` that follows returns `true` and leaves the region as the
write left it, and a `tm_read` by any transaction begun afterwards, read-only
or read-write, returns `true` and stores for every word `i` of the region the
copy that the valid bit selected before the `tm_write`; the value written is
not what is read. -/
theorem tm_read_after_commit_returns_old_copy (shared r1 : region) (k fuel tx : Nat)
    (source : Nat → uint) (size target : Nat)
    (halign : 0 < shared.align) (hsize : shared.size = k * shared.align)
    (hlt : shared.size < 2 ^ 64)
    (hw : tm_write fuel shared tx source size target = some (true, r1)) :
    tm_end r1 tx = (true, r1)
    ∧ ∀ (is_ro : Bool) (source2 size2 : Nat) (buf : Nat → uint) (fuel2 : Nat), k < fuel2 →
        ∃ buf1, tm_read fuel2 (tm_end r1 tx).2 (tm_begin (tm_end r1 tx).2 is_ro) source2 size2 buf
            = some (true, buf1, (tm_end r1 tx).2)
          ∧ ∀ i, i < k →
              buf1 (i * shared.align)
                = (if (shared.mem (i * shared.align)).valid
                    then (shared.mem (i * shared.align)).copy_B
                    else (shared.mem (i * shared.align)).copy_A) := by
  refine ⟨rfl, ?_⟩
  intro is_ro source2 size2 buf fuel2 hfuel
  have hf := tm_write_loop_frame fuel shared 0 (source 0) size (true, r1) hw
  simp only at hf
  have halign1 : 0 < r1.align := by rw [hf.2.1]; exact halign
  have hsize1 : r1.size = k * r1.align := by rw [hf.1, hf.2.1]; exact hsize
  have hlt1 : r1.size < 2 ^ 64 := by rw [hf.1]; exact hlt
  obtain ⟨buf1, hrun, -, hvals⟩ :=
    tm_read_loop_spec r1 k halign1 hsize1 hlt1 fuel2 0 size2 buf 0 (Nat.zero_le _) (by omega)
  refine ⟨buf1, hrun, fun i hi => ?_⟩
  have h := hvals i (Nat.zero_le _) hi
  rw [Nat.zero_add, Nat.sub_zero, hf.2.1] at h
  rw [h]
  exact (hf.2.2 _).2

/-- Witness for the amended C1 on the one-word region: after a `tm_write` of
`7` and the `tm_end`, a read-only `tm_read` stores the old value `5`. -/
theorem tm_read_after_commit_returns_old_copy_witness :
    tm_write 2 region5 (tm_begin region5 false) (fun _ => 7) 1 0
      = some (true, set_word region5 0 ⟨false, true, true, 5, 7⟩)
    ∧ ∃ buf1, tm_read 2 (set_word region5 0 ⟨false, true, true, 5, 7⟩)
          (tm_begin (set_word region5 0 ⟨false, true, true, 5, 7⟩) true) 0 1 (fun _ => 9)
        = some (true, buf1, set_word region5 0 ⟨false, true, true, 5, 7⟩)
      ∧ buf1 0 = 5 := by
  refine ⟨rfl, ?_⟩
  obtain ⟨buf1, hrun, hvals⟩ :=
    (tm_read_after_commit_returns_old_copy region5 (set_word region5 0 ⟨false, true, true, 5, 7⟩)
      1 2 (tm_begin region5 false) (fun _ => 7) 1 0 (by decide) (by decide) (by decide) rfl).2
      true 0 1 (fun _ => 9) 2 (by decide)
  exact ⟨buf1, hrun, hvals 0 (by decide)⟩

/-- C11, as stated, fails. On the one-word region, whose word is untouched,
`tm_write` called with the handle that `tm_begin` returns for a read-only
transaction returns `true` and changes the word: the value `7` lands in
`copy_B`, and `written` and `accessed` get set. -/
theorem read_only_handle_tm_write_succeeds :
    tm_begin region5 true = read_only_tx
    ∧ tm_write 2 region5 (tm_begin region5 true) (fun _ => 7) 1 0
      = some (true, set_word region5 0 ⟨false, true, true, 5, 7⟩)
    ∧ (set_word region5 0 ⟨false, true, true, 5, 7⟩).mem 0 ≠ region5.mem 0 := by
  refine ⟨by decide, rfl, by decide⟩

/-- C11, amended. `tm_write` does not look at the transaction handle: called
with the handle of a read-only transaction it does exactly what it does with
the handle of a read-write transaction. It is the per-word `tm_write_word`
called with `is_ro = true` that always returns `false` and leaves the region
unchanged. -/
theorem tm_write_ignores_handle :
    (∀ (fuel : Nat) (shared : region) (source : Nat → uint) (size target : Nat),
      tm_write fuel shared (tm_begin shared true) source size target
        = tm_write fuel shared (tm_begin shared false) source size target)
    ∧ (∀ (shared : region) (index : Nat) (v : uint) (size : Nat),
      tm_write_word shared index v size true = (false, shared)) := by
  constructor
  · intro fuel shared source size target
    rfl
  · intro shared index v size
    unfold tm_write_word
    cases tm_find_word_by_index shared index <;> simp

/-- C12, evaluated on the one-word region whose word carries `accessed` alone
(as a first-touch read-write `tm_read_word` leaves it). The `tm_write` of the
transaction returns `false` and records `Alloc.abort` in the region; the
`tm_end` that follows returns `true`. -/
theorem tm_end_true_after_abort :
    tm_write 2 (set_word region5 0 ⟨false, true, false, 5, 0⟩)
        (tm_begin region5 false) (fun _ => 7) 1 0
      = some (false, { set_word region5 0 ⟨false, true, false, 5, 0⟩ with
                        allocs := Alloc.abort })
    ∧ (tm_end { set_word region5 0 ⟨false, true, false, 5, 0⟩ with allocs := Alloc.abort }
        (tm_begin region5 false)).1 = true := by
  refine ⟨rfl, rfl⟩

/-- C13, evaluated on the two-word region with `size = 1`, the size of one
word, and the address of word `0`. `tm_write` returns `true` and has written
word `1` as well, which lies outside the range given; `tm_read` returns `true`
and has stored into two cells of the private buffer, one per word of the
region. -/
theorem tm_write_tm_read_sweep_whole_region :
    (tm_write 3 region5_two (tm_begin region5_two false) (fun _ => 7) 1 0).map
        (fun res => (res.1, res.2.mem 0, res.2.mem 1))
      = some (true, ⟨false, true, true, 5, 7⟩, ⟨false, true, true, 5, 7⟩)
    ∧ region5_two.mem 1 = ⟨false, false, false, 5, 0⟩
    ∧ (tm_read 3 region5_two (tm_begin region5_two true) 0 1 (fun _ => 9)).map
        (fun res => (res.1, res.2.1 0, res.2.1 1, res.2.1 2))
      = some (true, 5, 5, 9) := by
  decide

/-- C14, as stated, fails. On the one-word region, whose word is untouched and
whose committed value is `5`, a read-write transaction's `tm_write` of the
one-word buffer `[7]` returns `true`; the `tm_read` of the same address and
size by the same transaction returns `true` and yields `5`, not `7`. -/
theorem tm_read_does_not_return_own_write :
    tm_write 2 region5 (tm_begin region5 false) (fun _ => 7) 1 0
      = some (true, set_word region5 0 ⟨false, true, true, 5, 7⟩)
    ∧ (tm_read 2 (set_word region5 0 ⟨false, true, true, 5, 7⟩) (tm_begin region5 false) 0 1
        (fun _ => 9)).map (fun res => (res.1, res.2.1 0))
      = some (true, 5) := by
  refine ⟨rfl, ?_⟩
  decide

/-- C14, amended. `tm_read` reads every word as a read-only reader. For every
region whose size is `k * align` with `align` positive (and fits `size_t`) and
every transaction handle: if a `tm_write` returns `true`, then a `tm_read` with
the same handle, address and size returns `true`, leaves the region as the
write left it, and yields for every word `i` of the region the copy selected by
the valid bit, which is the one the word held before the `tm_write`; the
buffer written is not what is read back. -/
theorem tm_read_after_tm_write_yields_valid_copy (shared r1 : region) (k fuel fuel2 tx : Nat)
    (source : Nat → uint) (size target : Nat) (buf : Nat → uint)
    (halign : 0 < shared.align) (hsize : shared.size = k * shared.align)
    (hlt : shared.size < 2 ^ 64) (hfuel : k < fuel2)
    (hw : tm_write fuel shared tx source size target = some (true, r1)) :
    ∃ buf1, tm_read fuel2 r1 tx target size buf = some (true, buf1, r1)
      ∧ ∀ i, i < k →
          buf1 (i * shared.align) = valid_copy (r1.mem (i * shared.align))
          ∧ valid_copy (r1.mem (i * shared.align))
              = valid_copy (shared.mem (i * shared.align)) := by
  have hf := tm_write_loop_frame fuel shared 0 (source 0) size (true, r1) hw
  simp only at hf
  have halign1 : 0 < r1.align := by rw [hf.2.1]; exact halign
  have hsize1 : r1.size = k * r1.align := by rw [hf.1, hf.2.1]; exact hsize
  have hlt1 : r1.size < 2 ^ 64 := by rw [hf.1]; exact hlt
  obtain ⟨buf1, hrun, -, hvals⟩ :=
    tm_read_loop_spec r1 k halign1 hsize1 hlt1 fuel2 0 size buf 0 (Nat.zero_le _) (by omega)
  refine ⟨buf1, hrun, fun i hi => ⟨?_, (hf.2.2 _).2⟩⟩
  have h := hvals i (Nat.zero_le _) hi
  rw [Nat.zero_add, Nat.sub_zero, hf.2.1] at h
  exact h

/-- Witness for the amended C14 on the one-word region: after a `tm_write` of
`[7]`, the `tm_read` with the same handle yields the old value `5`. -/
theorem tm_read_after_tm_write_yields_valid_copy_witness :
    ∃ buf1, tm_read 2 (set_word region5 0 ⟨false, true, true, 5, 7⟩) (tm_begin region5 false) 0 1
        (fun _ => 9)
        = some (true, buf1, set_word region5 0 ⟨false, true, true, 5, 7⟩)
      ∧ buf1 0 = 5 := by
  obtain ⟨buf1, hrun, hvals⟩ :=
    tm_read_after_tm_write_yields_valid_copy region5 (set_word region5 0 ⟨false, true, true, 5, 7⟩)
      1 2 2 (tm_begin region5 false) (fun _ => 7) 1 0 (fun _ => 9)
      (by decide) (by decide) (by decide) (by decide) rfl
  exact ⟨buf1, hrun, (hvals 0 (by decide)).1.trans (hvals 0 (by decide)).2⟩

/-! ## The abort path of `tm_write` -/

/-- A `tm_write_word` call changes no cell other than the one of its word, and
neither `start` nor `allocs`. -/
theorem write_word_local (shared : region) (index : Nat) (v : uint) (size : Nat) (is_ro : Bool)
    (p : Nat) (hp : p ≠ slot shared index) :
    (tm_write_word shared index v size is_ro).2.mem p = shared.mem p := by
  by_cases h : in_bounds shared index
  · unfold tm_write_word
    rw [find_of_in_bounds h]
    rcases hw : shared.mem (slot shared index) with ⟨va, ac, wr, a, b⟩
    cases is_ro <;> cases va <;> cases ac <;> cases wr <;>
      simp [hw, set_word_mem_other _ _ hp]
  · unfold tm_write_word
    rw [find_of_not_in_bounds h]

/-- A `tm_write_word` call that returns `false` leaves the region as it was. -/
theorem write_word_abort_unchanged (shared : region) (index : Nat) (v : uint) (size : Nat)
    (is_ro : Bool) (h : (tm_write_word shared index v size is_ro).1 = false) :
    (tm_write_word shared index v size is_ro).2 = shared := by
  revert h
  unfold tm_write_word
  cases tm_find_word_by_index shared index with
  | none => simp
  | some p =>
    rcases hw : shared.mem p with ⟨va, ac, wr, a, b⟩
    cases is_ro <;> cases va <;> cases ac <;> cases wr <;> simp [hw]

/-- The return value of `tm_write_word` is determined by `size`, `align` and
the cell of the word. -/
theorem write_word_ret_congr {r1 r2 : region} (index : Nat) (v : uint) (size : Nat)
    (is_ro : Bool) (hsize : r1.size = r2.size) (halign : r1.align = r2.align)
    (hcell : r1.mem (slot r2 index) = r2.mem (slot r2 index)) :
    (tm_write_word r1 index v size is_ro).1 = (tm_write_word r2 index v size is_ro).1 := by
  have hslot : slot r1 index = slot r2 index := by unfold slot; rw [halign]
  by_cases h : in_bounds r2 index
  · have h1 : in_bounds r1 index := by
      unfold in_bounds at h ⊢
      rw [hsize, halign]; exact h
    unfold tm_write_word
    rw [find_of_in_bounds h, find_of_in_bounds h1, hslot]
    simp only [hcell]
    rcases hw : r2.mem (slot r2 index) with ⟨va, ac, wr, a, b⟩
    cases is_ro <;> cases va <;> cases ac <;> cases wr <;> simp
  · have h1 : ¬ in_bounds r1 index := by
      unfold in_bounds at h ⊢
      rw [hsize, halign]; exact h
    unfold tm_write_word
    rw [find_of_not_in_bounds h, find_of_not_in_bounds h1]

/-- When the loop of `tm_write` leaves with `false`, it does so at the first
word `j` from `index` on whose `tm_write_word` returns `false`; the cells other
than those of the words `index, …, j - 1` are as before, and `allocs` holds
`Alloc.abort`. -/
theorem tm_write_loop_abort (k : Nat) :
    ∀ (fuel : Nat) (s : region) (index : Nat) (v : uint) (sz : Nat) (r1 : region),
      0 < s.align → s.size = k * s.align → s.size < 2 ^ 64 → index ≤ k →
      tm_write_loop fuel s index v sz = some (false, r1) →
      ∃ j, index ≤ j ∧ j < k
        ∧ (∀ i, index ≤ i → i < j → (tm_write_word s i v sz false).1 = true)
        ∧ (tm_write_word s j v sz false).1 = false
        ∧ (∀ p, (∀ i, index ≤ i → i < j → p ≠ i * s.align) → r1.mem p = s.mem p)
        ∧ r1.allocs = Alloc.abort := by
  intro fuel
  induction fuel with
  | zero => intro s index v sz r1 _ _ _ _ h; simp [tm_write_loop] at h
  | succ fuel ih =>
    intro s index v sz r1 halign hsize hlt hi h
    have hmod := index_mul_align_mod hsize hlt hi
    rw [tm_write_loop, hmod] at h
    by_cases hik : index < k
    · have hlt2 : index * s.align < s.size := by
        rw [hsize]; exact Nat.mul_lt_mul_of_pos_right hik halign
      rw [if_pos hlt2] at h
      have hf := write_word_frame s index v sz false
      have hloc := write_word_local s index v sz false
      have hab := write_word_abort_unchanged s index v sz false
      rcases hres : tm_write_word s index v sz false with ⟨ok, s1⟩
      rw [hres] at h hf hloc hab
      cases ok
      · simp only [Option.some.injEq, Prod.mk.injEq, true_and] at h
        simp only [forall_const] at hab
        refine ⟨index, Nat.le_refl _, hik, fun i h1 h2 => by omega, ?_, ?_, ?_⟩
        · rw [hres]
        · intro p _
          rw [← h, hab]
        · rw [← h]
      · simp only at h hf hloc
        have hk64 : k < 2 ^ 64 := by
          have : k * 1 ≤ k * s.align := Nat.mul_le_mul_left _ halign
          omega
        have hsucc : (index + 1) % 2 ^ 64 = index + 1 := Nat.mod_eq_of_lt (by omega)
        rw [hsucc] at h
        obtain ⟨j, hj1, hj2, hbefore, hat, hmem, hallocs⟩ :=
          ih s1 (index + 1) v sz r1 (by rw [hf.2.1]; exact halign)
            (by rw [hf.1, hf.2.1]; exact hsize) (by rw [hf.1]; exact hlt) (by omega) h
        have hslot_index : slot s index = index * s.align := hmod
        have htransfer : ∀ i, index + 1 ≤ i → i ≤ k →
            (tm_write_word s1 i v sz false).1 = (tm_write_word s i v sz false).1 := by
          intro i h1 h2
          apply write_word_ret_congr i v sz false hf.1 hf.2.1
          apply hloc
          rw [hslot_index]
          have hsl : slot s i = i * s.align := index_mul_align_mod hsize hlt h2
          rw [hsl]
          intro heq
          have := Nat.eq_of_mul_eq_mul_right halign heq
          omega
        refine ⟨j, by omega, hj2, ?_, ?_, ?_, hallocs⟩
        · intro i h1 h2
          by_cases hii : i = index
          · subst hii; rw [hres]
          · rw [← htransfer i (by omega) (by omega)]
            exact hbefore i (by omega) h2
        · rw [← htransfer j hj1 (by omega)]
          exact hat
        · intro p hp
          rw [hmem p (fun i h1 h2 => by rw [hf.2.1]; exact hp i (by omega) h2)]
          apply hloc
          rw [hslot_index]
          exact hp index (Nat.le_refl _) (by omega)
    · have hik2 : index = k := by omega
      rw [if_neg (by rw [hsize, hik2]; exact Nat.lt_irrefl _)] at h
      simp at h

/-- C15. Short-circuit on abort: in a region whose size is `k * align` with
`align` positive (and fits `size_t`), whenever `tm_write` returns `false` there
is a word `j` of the region such that `tm_write_word` returns `true` for every
word before `j` and `false` for word `j` (the first one, in index order, to
report abort), word `j` and every word with a larger index are as they were
before the call, and the `allocs` field of the region holds `Alloc.abort`. -/
theorem tm_write_short_circuit (shared r1 : region) (k fuel tx : Nat) (source : Nat → uint)
    (size target : Nat)
    (halign : 0 < shared.align) (hsize : shared.size = k * shared.align)
    (hlt : shared.size < 2 ^ 64)
    (hw : tm_write fuel shared tx source size target = some (false, r1)) :
    ∃ j, j < k
      ∧ (∀ i, i < j → (tm_write_word shared i (source 0) size false).1 = true)
      ∧ (tm_write_word shared j (source 0) size false).1 = false
      ∧ (∀ i, j ≤ i → i < k → r1.mem (slot shared i) = shared.mem (slot shared i))
      ∧ r1.allocs = Alloc.abort := by
  obtain ⟨j, -, hj, hbefore, hat, hmem, hallocs⟩ :=
    tm_write_loop_abort k fuel shared 0 (source 0) size r1 halign hsize hlt (Nat.zero_le _) hw
  refine ⟨j, hj, fun i hi => hbefore i (Nat.zero_le _) hi, hat, ?_, hallocs⟩
  intro i h1 h2
  have hsl : slot shared i = i * shared.align := index_mul_align_mod hsize hlt (Nat.le_of_lt h2)
  rw [hsl]
  apply hmem
  intro i2 _ h3 heq
  have := Nat.eq_of_mul_eq_mul_right halign heq
  omega

/-- Witness for C15 on the two-word region whose word `1` carries `accessed`
alone: word `0` is written, word `1` reports abort. -/
theorem tm_write_short_circuit_witness :
    tm_write 3 region5_two_busy (tm_begin region5_two_busy false) (fun _ => 7) 1 0
      = some (false, { set_word region5_two_busy 0 ⟨false, true, true, 5, 7⟩ with
                        allocs := Alloc.abort })
    ∧ ∃ j, j < 2
      ∧ (∀ i, i < j → (tm_write_word region5_two_busy i 7 1 false).1 = true)
      ∧ (tm_write_word region5_two_busy j 7 1 false).1 = false
      ∧ (∀ i, j ≤ i → i < 2 →
          ({ set_word region5_two_busy 0 ⟨false, true, true, 5, 7⟩ with
              allocs := Alloc.abort } : region).mem (slot region5_two_busy i)
            = region5_two_busy.mem (slot region5_two_busy i))
      ∧ ({ set_word region5_two_busy 0 ⟨false, true, true, 5, 7⟩ with
            allocs := Alloc.abort } : region).allocs = Alloc.abort :=
  ⟨rfl, tm_write_short_circuit region5_two_busy _ 2 3 (tm_begin region5_two_busy false)
    (fun _ => 7) 1 0 (by decide) (by decide) (by decide) rfl⟩

/-! ## The end of a transaction and the Batcher -/

/-- C16, as stated, fails. On the one-word region a single transaction performs
a `tm_write`, which returns `true`, and ends with `tm_end`, which returns
`true`; it is the last transaction of its epoch, and afterwards the word still
has `accessed = true` and `written = true`. -/
theorem flags_survive_tm_end :
    tm_write 2 region5 (tm_begin region5 false) (fun _ => 7) 1 0
      = some (true, set_word region5 0 ⟨false, true, true, 5, 7⟩)
    ∧ (tm_end (set_word region5 0 ⟨false, true, true, 5, 7⟩) (tm_begin region5 false)).1 = true
    ∧ ((tm_end (set_word region5 0 ⟨false, true, true, 5, 7⟩)
        (tm_begin region5 false)).2.mem (slot region5 0)).accessed = true
    ∧ ((tm_end (set_word region5 0 ⟨false, true, true, 5, 7⟩)
        (tm_begin region5 false)).2.mem (slot region5 0)).written = true := by
  refine ⟨rfl, ?_, ?_, ?_⟩ <;> decide

/-- C16, amended. Nothing resets the flags when a transaction ends: `tm_end`
returns `true` and leaves every word of the region, in particular its
`accessed` and `written` flags, exactly as the reads and writes of the epoch
left it. -/
theorem tm_end_keeps_flags (shared : region) (tx : Nat) (p : Nat) :
    (tm_end shared tx).1 = true
    ∧ ((tm_end shared tx).2.mem p).accessed = (shared.mem p).accessed
    ∧ ((tm_end shared tx).2.mem p).written = (shared.mem p).written
    ∧ (tm_end shared tx).2.mem p = shared.mem p :=
  ⟨rfl, rfl, rfl, rfl⟩

/-- C17, as stated, fails. From a state whose Batcher has `remaining = 0`, one
`tm_begin` leaves `remaining = 0` although one transaction has begun and not
ended; `enter_epoch`, which `tm_begin` does not call, would have set it to
`1`. -/
theorem tm_begin_leaves_remaining :
    (run_calls ⟨region5, ⟨0, 0, false, []⟩⟩ [api_call.begin_tx false]).batcher.remaining = 0
    ∧ live_transactions [api_call.begin_tx false] = 1
    ∧ (enter_epoch ⟨0, 0, false, []⟩ 1).1.remaining = 1 := by
  decide

/-- C17, amended. `tm_begin` and `tm_end` do not drive the Batcher: whatever
list of `tm_begin` and `tm_end` calls runs, the variables of the Batcher, its
`remaining` counter among them, are what they were before; `remaining` is not
tied to the number of transactions begun and not yet ended. -/
theorem tm_begin_tm_end_keep_batcher (s : tm_system) (calls : List api_call) :
    (run_calls s calls).batcher = s.batcher
    ∧ (run_calls s calls).batcher.remaining = s.batcher.remaining := by
  have h : (run_calls s calls).batcher = s.batcher := by
    unfold run_calls
    induction calls generalizing s with
    | nil => rfl
    | cons c calls ih =>
      rw [List.foldl_cons, ih]
      cases c <;> rfl
  exact ⟨h, by rw [h]⟩

/-! ## Allocation and freeing of segments -/

/-- Whenever `tm_alloc` returns `Alloc.success`, the address stored in `*target`
is `tm_start` of the region and the region pointer has been appended to
`segment_list`. -/
theorem tm_alloc_success (word_bytes : Nat) (push_ok : Bool) (malloc : Nat → Nat)
    (off_cell : Nat → word) (segment_list : List Nat) (handle : Nat) (shared : region)
    (tx size target : Nat) (res : alloc_result)
    (h : tm_alloc word_bytes push_ok malloc off_cell segment_list handle shared tx size target
          = some res)
    (hret : res.ret = Alloc.success) :
    res.target = tm_start shared ∧ res.segment_list = segment_list ++ [handle] := by
  unfold tm_alloc at h
  simp only at h
  split at h
  · simp only [Option.some.injEq] at h
    subst h
    simp at hret
  · split at h
    · simp at h
    · simp only [Option.some.injEq] at h
      subst h
      exact ⟨rfl, rfl⟩

/-- When `push_back` fails, `tm_alloc` returns `Alloc.nomem` and changes
nothing. -/
theorem tm_alloc_push_fails (word_bytes : Nat) (malloc : Nat → Nat) (off_cell : Nat → word)
    (segment_list : List Nat) (handle : Nat) (shared : region) (tx size target : Nat) :
    tm_alloc word_bytes false malloc off_cell segment_list handle shared tx size target
      = some ⟨Alloc.nomem, target, segment_list, shared⟩ := by
  simp [tm_alloc]

/-- When `push_back` succeeds and `align` is not `0`, `tm_alloc` returns
`Alloc.success` whatever the size, with `tm_start` in `*target` and the region
pointer appended to `segment_list`. -/
theorem tm_alloc_push_succeeds (word_bytes : Nat) (malloc : Nat → Nat) (off_cell : Nat → word)
    (segment_list : List Nat) (handle : Nat) (shared : region) (tx size target : Nat)
    (halign : 0 < shared.align) :
    ∃ mem2, tm_alloc word_bytes true malloc off_cell segment_list handle shared tx size target
      = some ⟨Alloc.success, tm_start shared, segment_list ++ [handle],
          { shared with mem := mem2 }⟩ := by
  have h0 : ¬ shared.align = 0 := by omega
  unfold tm_alloc
  simp only [tm_align, tm_start, Bool.true_eq_false, if_false, h0]
  exact ⟨_, rfl⟩

/-- C18, evaluated on the state a successful `tm_alloc` leaves. The `tm_alloc`
registers the region pointer `64` in `segment_list`; the `tm_free` that follows
returns `true` and has already erased it: right after the call the list is
empty and the segment is no member of it. -/
theorem tm_free_erases_at_once :
    (tm_alloc 12 true (fun n => 4096 + 16 * n) (fun _ => ⟨false, false, false, 0, 0⟩) [] 64 region12 (tm_begin region12 false)
        12 0).map (fun res => (res.ret, res.segment_list))
      = some (Alloc.success, [64])
    ∧ (tm_alloc 12 true (fun n => 4096 + 16 * n) (fun _ => ⟨false, false, false, 0, 0⟩) [] 64 region12 (tm_begin region12 false)
        12 0).map
        (fun res => tm_free res.segment_list 64 res.shared (tm_begin region12 false) res.target)
      = some (true, [])
    ∧ 64 ∉ ([] : List Nat) := by
  decide

/-- C19, evaluated on a region of one word with `size = align = 12` and
`malloc` returning `4096` and `4112`. The call returns `Alloc.success`, and the
one word of the returned segment has its three flags clear but `copy_A = 4096`
and `copy_B = 4112`, the two pointers, instead of `0`. -/
theorem tm_alloc_copies_hold_pointers :
    (tm_alloc 12 true (fun n => 4096 + 16 * n) (fun _ => ⟨false, false, false, 0, 0⟩) [] 64 region12 (tm_begin region12 false)
        12 0).map (fun res => (res.ret, res.shared.mem 0))
      = some (Alloc.success, ⟨false, false, false, 4096, 4112⟩) := by
  decide

/-- C20, evaluated on the same input. The address stored in `*target` is
`tm_start` of the region, `8192`, and word `0` of the root segment, which held
`copy_A = 5`, has been overwritten. -/
theorem tm_alloc_returns_root_segment :
    (tm_alloc 12 true (fun n => 4096 + 16 * n) (fun _ => ⟨false, false, false, 0, 0⟩) [] 64 region12 (tm_begin region12 false)
        12 0).map (fun res => (res.ret, res.target, res.shared.mem (slot region12 0)))
      = some (Alloc.success, 8192, ⟨false, false, false, 4096, 4112⟩)
    ∧ tm_start region12 = 8192
    ∧ region12.mem (slot region12 0) = ⟨false, false, false, 5, 0⟩ := by
  decide

/-- C21, as stated, fails. With `size = 0` and with `size = 13` on the one-word
region of alignment `12`, and with `size = 12` on the region of alignment `24`,
none of them a positive multiple of the alignment, `tm_alloc` returns
`Alloc.success`, not `Alloc.abort`, and registers the region pointer `64` in
`segment_list`. -/
theorem tm_alloc_accepts_malformed_size :
    (tm_alloc 12 true (fun n => 4096 + 16 * n) (fun _ => ⟨false, false, false, 0, 0⟩) [] 64
        region12 (tm_begin region12 false) 0 0).map (fun res => (res.ret, res.segment_list))
      = some (Alloc.success, [64])
    ∧ ¬ (region12.align ∣ 13)
    ∧ (tm_alloc 12 true (fun n => 4096 + 16 * n) (fun _ => ⟨false, false, false, 0, 0⟩) [] 64
        region12 (tm_begin region12 false) 13 0).map (fun res => (res.ret, res.segment_list))
      = some (Alloc.success, [64])
    ∧ ¬ (region24.align ∣ 12)
    ∧ (tm_alloc 12 true (fun n => 4096 + 16 * n) (fun _ => ⟨false, false, false, 0, 0⟩) [] 64
        region24 (tm_begin region24 false) 12 0).map (fun res => (res.ret, res.segment_list))
      = some (Alloc.success, [64]) := by
  decide

/-- C21, amended. `tm_alloc` does not check `size`: for every region whose
`align` is not `0` and every size, zero or not a multiple of `align` included,
the call returns, and never with `Alloc.abort`. When `push_back` gets its memory
it returns `Alloc.success`, appends the region pointer to `segment_list` and
stores `tm_start` of the region in `*target`; otherwise it returns
`Alloc.nomem` and leaves `segment_list` and `*target` as they were. -/
theorem tm_alloc_never_aborts (word_bytes : Nat) (push_ok : Bool) (malloc : Nat → Nat)
    (off_cell : Nat → word) (segment_list : List Nat) (handle : Nat) (shared : region)
    (tx size target : Nat) (halign : 0 < shared.align) :
    ∃ res, tm_alloc word_bytes push_ok malloc off_cell segment_list handle shared tx size target
        = some res
      ∧ res.ret ≠ Alloc.abort
      ∧ (push_ok = true →
          res.ret = Alloc.success ∧ res.segment_list = segment_list ++ [handle]
          ∧ res.target = tm_start shared)
      ∧ (push_ok = false →
          res.ret = Alloc.nomem ∧ res.segment_list = segment_list ∧ res.target = target) := by
  cases push_ok with
  | false =>
    refine ⟨_, tm_alloc_push_fails word_bytes malloc off_cell segment_list handle shared tx size
      target, ?_, ?_, ?_⟩ <;> simp
  | true =>
    obtain ⟨mem2, h⟩ := tm_alloc_push_succeeds word_bytes malloc off_cell segment_list handle
      shared tx size target halign
    refine ⟨_, h, ?_, ?_, ?_⟩ <;> simp

/-- Witness for the amended C21 at `size = 13`, not a multiple of the alignment
`12` nor of the size of a word, on the one-word region. -/
theorem tm_alloc_never_aborts_witness :
    0 < region12.align
    ∧ ¬ (region12.align ∣ 13)
    ∧ ∃ res, tm_alloc 12 true (fun n => 4096 + 16 * n) (fun _ => ⟨false, false, false, 0, 0⟩)
          [] 64 region12 (tm_begin region12 false) 13 0 = some res
        ∧ res.ret ≠ Alloc.abort
        ∧ (true = true →
            res.ret = Alloc.success ∧ res.segment_list = [] ++ [64]
            ∧ res.target = tm_start region12)
        ∧ (true = false →
            res.ret = Alloc.nomem ∧ res.segment_list = [] ∧ res.target = 0) :=
  ⟨by decide, by decide,
    tm_alloc_never_aborts 12 true (fun n => 4096 + 16 * n) (fun _ => ⟨false, false, false, 0, 0⟩)
      [] 64 region12 (tm_begin region12 false) 13 0 (by decide)⟩

/-- C22, as stated, fails. With no segment allocated (`segment_list` empty) and
an address that no `tm_alloc` returned, `tm_free` returns `true`, not
`false`. -/
theorem tm_free_accepts_unregistered_address :
    tm_free [] 64 region12 (tm_begin region12 false) 12345 = (true, []) := by
  decide

/-- C22, amended. `tm_free` never reports failure and does not look at the
address: for every address it returns `true`; when the region pointer is not
in `segment_list`, in particular when no segment has been allocated, it leaves
`segment_list` unchanged. -/
theorem tm_free_always_true (segment_list : List Nat) (handle : Nat) (shared : region)
    (tx target : Nat) :
    (tm_free segment_list handle shared tx target).1 = true
    ∧ (handle ∉ segment_list →
        (tm_free segment_list handle shared tx target).2 = segment_list)
    ∧ (tm_free [] handle shared tx target).2 = [] := by
  refine ⟨rfl, fun h => ?_, rfl⟩
  simp only [tm_free]
  exact List.erase_of_not_mem h

/-- Witness for the amended C22: with the region pointer `64` and the list
`[7]`, `tm_free` returns `true` and leaves the list as it was. -/
theorem tm_free_always_true_witness :
    (64 : Nat) ∉ [7]
    ∧ (tm_free [7] 64 region12 (tm_begin region12 false) 12345).1 = true
    ∧ (tm_free [7] 64 region12 (tm_begin region12 false) 12345).2 = [7] :=
  ⟨by decide,
    (tm_free_always_true [7] 64 region12 (tm_begin region12 false) 12345).1,
    (tm_free_always_true [7] 64 region12 (tm_begin region12 false) 12345).2.1 (by decide)⟩

/-- C23. Accessors return what create recorded: for every `size` and `align`
for which `tm_create` returns a region, `tm_size` of it is `size` and `tm_align`
of it is `align` (and `tm_start` of it is the value its `start` field has). The
accessors are functions of the region that return a value only: no call of
them changes the region. -/
theorem accessors_return_created_values (word_bytes : Nat) (malloc_ok : Bool) (start : Nat)
    (mem : Nat → word) (edge_cell : word) (size align : Nat) (shared : region)
    (h : tm_create word_bytes malloc_ok start mem edge_cell size align = some shared) :
    tm_size shared = size ∧ tm_align shared = align ∧ tm_start shared = start := by
  unfold tm_create at h
  split at h
  · simp at h
  · simp only [Option.some.injEq] at h
    subst h
    exact ⟨rfl, rfl, rfl⟩

/-- Witness for C23 with the arguments of the driver for ten transactions,
`tm_create(10 * sizeof(struct word), sizeof(struct word))`. -/
theorem accessors_return_created_values_witness :
    (tm_create 12 true 8192 (fun _ => ⟨true, true, true, 1, 2⟩) ⟨false, false, false, 0, 0⟩
        120 12).map (fun shared => (tm_size shared, tm_align shared))
      = some (120, 12) := by
  have h := accessors_return_created_values 12 true 8192 (fun _ => ⟨true, true, true, 1, 2⟩)
    ⟨false, false, false, 0, 0⟩ 120 12 _ rfl
  exact congrArg some (Prod.ext h.1 h.2.1)

/-! ## The Batcher -/

/-- An `int` in range is its own wrapped value. -/
theorem wrap_int_of_range {x : Int} (h1 : -2 ^ 31 ≤ x) (h2 : x < 2 ^ 31) : wrap_int x = x := by
  unfold wrap_int
  rw [Int.emod_eq_of_lt (by omega) (by omega)]
  omega

/-- C26, as stated, fails. In a Batcher state with `remaining = 1`, an empty
blocked queue and no transition under way, `enter_epoch` leaves `remaining` at
`1` and appends the caller, thread `7`, to the blocked queue, where it stays
suspended. -/
theorem enter_epoch_blocks_when_remaining :
    (enter_epoch ⟨0, 1, false, []⟩ 7).1.remaining = 1
    ∧ (enter_epoch ⟨0, 1, false, []⟩ 7).1.blocked_pthread = [7]
    ∧ (enter_epoch ⟨0, 1, false, []⟩ 7).2 = true := by
  decide

/-- C26, amended. `enter_epoch` admits the caller only when `remaining` is `0`:
it then sets `remaining` to `1`, one more than before, does not add the caller
to the blocked queue and does not suspend it. When `remaining` is not `0` it
leaves `remaining` unchanged, appends the caller to the blocked queue, and
leaves the caller suspended in `sleep_task.wait(false)` exactly when
`sleep_task` is `false`. In both cases the epoch counter is unchanged, and
neither `enter_epoch` nor `leave_epoch` changes `sleep_task`, which is `false`
at the start. -/
theorem enter_epoch_admits_when_idle (b : Batcher) (current_pthread : Nat) :
    (b.remaining = 0 →
      (enter_epoch b current_pthread).1.remaining = b.remaining + 1
      ∧ (enter_epoch b current_pthread).1.blocked_pthread = b.blocked_pthread
      ∧ (enter_epoch b current_pthread).2 = false)
    ∧ (b.remaining ≠ 0 →
      (enter_epoch b current_pthread).1.remaining = b.remaining
      ∧ (enter_epoch b current_pthread).1.blocked_pthread
          = b.blocked_pthread ++ [current_pthread]
      ∧ ((enter_epoch b current_pthread).2 = true ↔ b.sleep_task = false))
    ∧ (enter_epoch b current_pthread).1.counter = b.counter
    ∧ (enter_epoch b current_pthread).1.sleep_task = b.sleep_task
    ∧ (leave_epoch b).sleep_task = b.sleep_task := by
  refine ⟨?_, ?_, ?_, ?_, ?_⟩
  · intro h
    simp [enter_epoch, h]
  · intro h
    simp [enter_epoch, h]
  · unfold enter_epoch
    by_cases h : b.remaining = 0 <;> simp [h]
  · unfold enter_epoch
    by_cases h : b.remaining = 0 <;> simp [h]
  · unfold leave_epoch
    simp only
    split <;> rfl

/-- Witness for the amended C26: admitted on the initial Batcher state, all
zero, and queued and suspended on a state with `remaining = 2`. -/
theorem enter_epoch_admits_when_idle_witness :
    (⟨0, 0, false, []⟩ : Batcher).remaining = 0
    ∧ ((enter_epoch ⟨0, 0, false, []⟩ 7).1.remaining = 1
      ∧ (enter_epoch ⟨0, 0, false, []⟩ 7).1.blocked_pthread = []
      ∧ (enter_epoch ⟨0, 0, false, []⟩ 7).2 = false)
    ∧ (⟨0, 2, false, [5]⟩ : Batcher).remaining ≠ 0
    ∧ ((enter_epoch ⟨0, 2, false, [5]⟩ 7).1.remaining = 2
      ∧ (enter_epoch ⟨0, 2, false, [5]⟩ 7).1.blocked_pthread = [5] ++ [7]
      ∧ ((enter_epoch ⟨0, 2, false, [5]⟩ 7).2 = true
          ↔ (⟨0, 2, false, [5]⟩ : Batcher).sleep_task = false)) :=
  ⟨by decide, (enter_epoch_admits_when_idle ⟨0, 0, false, []⟩ 7).1 (by decide),
    by decide, (enter_epoch_admits_when_idle ⟨0, 2, false, [5]⟩ 7).2.1 (by decide)⟩

/-- C27, as stated, fails. In the Batcher state with `remaining = 1`, one
thread in the blocked queue and `counter = 2147483647`, the largest `int`,
`leave_epoch` takes the counter to `-2147483648`, not to `2147483648`. -/
theorem last_leaver_wraps_counter :
    (leave_epoch ⟨2147483647, 1, false, [7]⟩).counter = -2147483648
    ∧ (leave_epoch ⟨2147483647, 1, false, [7]⟩).counter ≠ 2147483647 + 1 := by
  decide

/-- C27, amended. Epoch transition by the last leaver: for every Batcher state
with `remaining = 1` and a blocked queue of `q` threads, `leave_epoch` advances
the epoch counter by one with the wrap-around of an `int`, sets `remaining` to
`q` converted to `int`, and empties the blocked queue; the counter advances by
exactly one when it is an `int` below the largest, `2 ^ 31 - 1`, and
`remaining` is exactly `q` when `q < 2 ^ 31`. -/
theorem last_leaver_starts_next_epoch (b : Batcher) (q : Nat)
    (hrem : b.remaining = 1) (hq : b.blocked_pthread.length = q) :
    (leave_epoch b).counter = wrap_int (b.counter + 1)
    ∧ (leave_epoch b).remaining = wrap_int (q : Int)
    ∧ (leave_epoch b).blocked_pthread = []
    ∧ (-2 ^ 31 ≤ b.counter → b.counter < 2 ^ 31 - 1 → (leave_epoch b).counter = b.counter + 1)
    ∧ (q < 2 ^ 31 → (leave_epoch b).remaining = (q : Int)) := by
  have h0 : wrap_int (b.remaining - 1) = 0 := by rw [hrem]; decide
  have hc : (leave_epoch b).counter = wrap_int (b.counter + 1) := by
    simp [leave_epoch, h0]
  have hr : (leave_epoch b).remaining = wrap_int (q : Int) := by
    simp [leave_epoch, h0, hq]
  refine ⟨hc, hr, by simp [leave_epoch, h0], ?_, ?_⟩
  · intro h1 h2
    rw [hc]
    exact wrap_int_of_range (by omega) (by omega)
  · intro h1
    rw [hr]
    exact wrap_int_of_range (by omega) (by omega)

/-- Witness for the amended C27 with three threads in the blocked queue. -/
theorem last_leaver_starts_next_epoch_witness :
    (⟨4, 1, false, [7, 8, 9]⟩ : Batcher).remaining = 1
    ∧ (leave_epoch ⟨4, 1, false, [7, 8, 9]⟩).counter = 4 + 1
    ∧ (leave_epoch ⟨4, 1, false, [7, 8, 9]⟩).remaining = ((3 : Nat) : Int)
    ∧ (leave_epoch ⟨4, 1, false, [7, 8, 9]⟩).blocked_pthread = [] :=
  ⟨by decide,
    (last_leaver_starts_next_epoch ⟨4, 1, false, [7, 8, 9]⟩ 3 (by decide) (by decide)).2.2.2.1
      (by decide) (by decide),
    (last_leaver_starts_next_epoch ⟨4, 1, false, [7, 8, 9]⟩ 3 (by decide) (by decide)).2.2.2.2
      (by decide),
    (last_leaver_starts_next_epoch ⟨4, 1, false, [7, 8, 9]⟩ 3 (by decide) (by decide)).2.2.1⟩

/-- C28, evaluated on the Batcher state with `remaining = 3`, `counter = 4` and
one thread in the blocked queue. `leave_epoch` decrements `remaining` to `2`,
finds it non-zero and runs the `else` branch, whose assignment sets it to `1`:
the call leaves `remaining = 1`, not `3 - 1`; the counter and the blocked
queue are unchanged. -/
theorem non_last_leaver_resets_remaining :
    (leave_epoch ⟨4, 3, false, [7]⟩).remaining = 1
    ∧ (leave_epoch ⟨4, 3, false, [7]⟩).remaining ≠ 3 - 1
    ∧ (leave_epoch ⟨4, 3, false, [7]⟩).counter = 4
    ∧ (leave_epoch ⟨4, 3, false, [7]⟩).blocked_pthread = [7] := by
  decide

/-! ## Flags under sequences of word operations -/

/-- A `tm_read_word` call, whatever its arguments and its outcome, leaves every
cell as it was or sets its `accessed` flag and nothing else. -/
theorem read_word_cells (shared : region) (index size : Nat) (target : uint) (is_ro : Bool)
    (q : Nat) :
    (tm_read_word shared index size target is_ro).2.2.mem q = shared.mem q
    ∨ (tm_read_word shared index size target is_ro).2.2.mem q
        = { shared.mem q with accessed := true } := by
  unfold tm_read_word
  cases hf : tm_find_word_by_index shared index with
  | none => exact Or.inl rfl
  | some p =>
    by_cases hq : q = p
    · subst hq
      cases is_ro <;> cases hwr : (shared.mem q).written <;>
        cases hac : (shared.mem q).accessed <;> simp [hwr, hac]
    · cases is_ro <;> cases hwr : (shared.mem p).written <;>
        cases hac : (shared.mem p).accessed <;> simp [hwr, hac, set_word_mem_other _ _ hq]

/-- A `tm_write_word` call, whatever its arguments and its outcome, leaves every
cell as it was or leaves it with both `accessed` and `written` set. -/
theorem write_word_cells (shared : region) (index : Nat) (v : uint) (size : Nat) (is_ro : Bool)
    (q : Nat) :
    (tm_write_word shared index v size is_ro).2.mem q = shared.mem q
    ∨ (((tm_write_word shared index v size is_ro).2.mem q).accessed = true
        ∧ ((tm_write_word shared index v size is_ro).2.mem q).written = true) := by
  unfold tm_write_word
  cases hf : tm_find_word_by_index shared index with
  | none => exact Or.inl rfl
  | some p =>
    by_cases hq : q = p
    · subst hq
      cases is_ro <;> cases hwr : (shared.mem q).written <;>
        cases hac : (shared.mem q).accessed <;> cases hva : (shared.mem q).valid <;>
        simp [hwr, hac, hva]
    · cases is_ro <;> cases hwr : (shared.mem p).written <;>
        cases hac : (shared.mem p).accessed <;> simp [hwr, hac, set_word_mem_other _ _ hq]

/-- One word operation keeps, in every cell, the implication from `written` to
`accessed`, and clears neither flag. -/
theorem run_op_flags (shared : region) (op : word_op) (q : Nat) :
    (((shared.mem q).written = true → (shared.mem q).accessed = true) →
      ((run_op shared op).mem q).written = true → ((run_op shared op).mem q).accessed = true)
    ∧ ((shared.mem q).accessed = true → ((run_op shared op).mem q).accessed = true)
    ∧ ((shared.mem q).written = true → ((run_op shared op).mem q).written = true) := by
  cases op with
  | read_word index size target is_ro =>
    simp only [run_op]
    rcases read_word_cells shared index size target is_ro q with h | h <;> rw [h] <;> simp
  | write_word index v size is_ro =>
    simp only [run_op]
    rcases write_word_cells shared index v size is_ro q with h | h
    · rw [h]; simp
    · simp [h.1, h.2]

/-- A list of word operations keeps, in every cell, the implication from
`written` to `accessed`. -/
theorem run_ops_flags (ops : List word_op) (shared : region) (q : Nat)
    (h : (shared.mem q).written = true → (shared.mem q).accessed = true) :
    ((run_ops shared ops).mem q).written = true →
      ((run_ops shared ops).mem q).accessed = true := by
  unfold run_ops
  induction ops generalizing shared with
  | nil => exact h
  | cons op ops ih =>
    rw [List.foldl_cons]
    exact ih (run_op shared op) ((run_op_flags shared op q).1 h)

/-- C29. Written implies accessed: starting from a zero-initialised word (the
cell `p`, with `valid`, `accessed` and `written` all `false`), every list of
`tm_read_word` and `tm_write_word` calls with any arguments leaves the word in
a state where `written = true` implies `accessed = true`; hence a read-write
`tm_read_word` and a read-write `tm_write_word` of that word, once it is
written, return `true` rather than take the branch for `written` without
`accessed`; and no further call clears `accessed` or `written` in any cell. -/
theorem written_implies_accessed (shared : region) (p : Nat) (ops : List word_op)
    (h0 : shared.mem p = ⟨false, false, false, 0, 0⟩) :
    (((run_ops shared ops).mem p).written = true →
      ((run_ops shared ops).mem p).accessed = true)
    ∧ (∀ (index size : Nat) (target : uint),
        in_bounds (run_ops shared ops) index → slot (run_ops shared ops) index = p →
        ((run_ops shared ops).mem p).written = true →
        (tm_read_word (run_ops shared ops) index size target false).1 = true)
    ∧ (∀ (index : Nat) (v : uint) (size : Nat),
        in_bounds (run_ops shared ops) index → slot (run_ops shared ops) index = p →
        ((run_ops shared ops).mem p).written = true →
        (tm_write_word (run_ops shared ops) index v size false).1 = true)
    ∧ (∀ (op : word_op) (q : Nat),
        (((run_ops shared ops).mem q).accessed = true →
          ((run_op (run_ops shared ops) op).mem q).accessed = true)
        ∧ (((run_ops shared ops).mem q).written = true →
          ((run_op (run_ops shared ops) op).mem q).written = true)) := by
  have hinv := run_ops_flags ops shared p (by rw [h0]; simp)
  refine ⟨hinv, ?_, ?_, fun op q => (run_op_flags _ op q).2⟩
  · intro index size target hb hs hw
    have hw2 : ((run_ops shared ops).mem (slot (run_ops shared ops) index)).written = true := by
      rw [hs]; exact hw
    rw [read_word_written size target hb hw2, hs, hinv hw]
    rfl
  · intro index v size hb hs hw
    have hw2 : ((run_ops shared ops).mem (slot (run_ops shared ops) index)).written = true := by
      rw [hs]; exact hw
    rw [write_word_written v size hb hw2, hs, hinv hw]
    rfl

/-- Witness for C29 on a one-word region whose word is zero-initialised, after
a read-write read, a read-write write and a read-only write. -/
theorem written_implies_accessed_witness :
    (set_word region5 0 ⟨false, false, false, 0, 0⟩).mem 0 = ⟨false, false, false, 0, 0⟩
    ∧ ((run_ops (set_word region5 0 ⟨false, false, false, 0, 0⟩)
          [word_op.write_word 0 7 4 false, word_op.read_word 0 4 9 false,
            word_op.write_word 0 8 4 true]).mem 0).written = true
    ∧ ((run_ops (set_word region5 0 ⟨false, false, false, 0, 0⟩)
          [word_op.write_word 0 7 4 false, word_op.read_word 0 4 9 false,
            word_op.write_word 0 8 4 true]).mem 0).accessed = true :=
  ⟨by decide, by decide,
    (written_implies_accessed (set_word region5 0 ⟨false, false, false, 0, 0⟩) 0
      [word_op.write_word 0 7 4 false, word_op.read_word 0 4 9 false,
        word_op.write_word 0 8 4 true] (by decide)).1 (by decide)⟩

/-! ## Two racing calls of `tm_write_word` -/

/-- A thread that takes the atomic steps of its call without interruption does
what `tm_write_word` does: after six steps it has returned the value of the
call and the word is the one the call leaves. -/
theorem write_step_alone (shared : region) (index : Nat) (v v2 : uint) (size : Nat)
    (h : in_bounds shared index) :
    race_run v v2 (race_start (shared.mem (slot shared index))) (List.replicate 6 false)
      = ⟨(tm_write_word shared index v size false).2.mem (slot shared index),
          write_pc.done (tm_write_word shared index v size false).1,
          write_pc.load_written⟩ := by
  unfold tm_write_word
  rw [find_of_in_bounds h]
  rcases hw : shared.mem (slot shared index) with ⟨va, ac, wr, a, b⟩
  cases va <;> cases ac <;> cases wr <;>
    simp [race_run, race_step, race_start, write_step, List.replicate, hw]

/-- Each atomic step brings a thread nearer to its return. -/
theorem write_step_rank (source : uint) (pc : write_pc) (w : word) :
    write_rank (write_step source pc w).1 ≤ write_rank pc - 1 := by
  cases pc with
  | load_written => simp [write_step, write_rank]
  | load_accessed wr =>
    cases wr <;> cases h : w.accessed <;> simp [write_step, write_rank, h]
  | load_valid wr => simp [write_step, write_rank]
  | store_copy wr v => cases v <;> simp [write_step, write_rank]
  | store_written wr => cases wr <;> simp [write_step, write_rank]
  | store_accessed => simp [write_step, write_rank]
  | done r => simp [write_step, write_rank]

/-- After a schedule each thread is as much nearer to its return as it has
taken steps. -/
theorem race_run_rank (source1 source2 : uint) (schedule : List Bool) (s : race_state) :
    write_rank (race_run source1 source2 s schedule).pc1
        ≤ write_rank s.pc1 - schedule.count false
    ∧ write_rank (race_run source1 source2 s schedule).pc2
        ≤ write_rank s.pc2 - schedule.count true := by
  unfold race_run
  induction schedule generalizing s with
  | nil => simp
  | cons b bs ih =>
    rw [List.foldl_cons]
    have h := ih (race_step source1 source2 s b)
    cases b
    · have hr := write_step_rank source1 s.pc1 s.target
      simp only [race_step, Bool.false_eq_true, if_false] at h ⊢
      simp only [List.count_cons_self, List.count_cons_of_ne (by decide : false ≠ true)]
      constructor
      · omega
      · exact h.2
    · have hr := write_step_rank source2 s.pc2 s.target
      simp only [race_step, if_true] at h ⊢
      simp only [List.count_cons_self, List.count_cons_of_ne (by decide : true ≠ false)]
      constructor
      · exact h.1
      · omega

/-- A thread with no step left has returned. -/
theorem done_of_rank_zero (pc : write_pc) (h : write_rank pc = 0) : ∃ r, pc = write_pc.done r := by
  cases pc <;> simp [write_rank] at h
  exact ⟨_, rfl⟩

/-- The invariant holds at the start on a word with `accessed` and `written`
clear. -/
theorem race_inv_start (w : word) (ha : w.accessed = false) (hw : w.written = false) :
    race_inv w (race_start w) := by
  simp [race_inv, race_start, thread_inv, ha, hw]

@[simp] theorem committed_load_written : committed write_pc.load_written = false := rfl

@[simp] theorem committed_load_accessed (x : Bool) :
    committed (write_pc.load_accessed x) = false := rfl

@[simp] theorem committed_load_valid (x : Bool) : committed (write_pc.load_valid x) = true := rfl

@[simp] theorem committed_store_copy (x v : Bool) :
    committed (write_pc.store_copy x v) = true := rfl

@[simp] theorem committed_store_written (x : Bool) :
    committed (write_pc.store_written x) = true := rfl

@[simp] theorem committed_store_accessed : committed write_pc.store_accessed = true := rfl

@[simp] theorem committed_done (r : Bool) : committed (write_pc.done r) = r := by
  cases r <;> rfl

@[simp] theorem thread_inv_load_written (w : word) (o : write_pc) :
    thread_inv w write_pc.load_written o ↔ True := Iff.rfl

@[simp] theorem thread_inv_load_accessed_true (w : word) (o : write_pc) :
    thread_inv w (write_pc.load_accessed true) o ↔ committed o = true := Iff.rfl

@[simp] theorem thread_inv_load_accessed_false (w : word) (o : write_pc) :
    thread_inv w (write_pc.load_accessed false) o ↔ True := Iff.rfl

@[simp] theorem thread_inv_load_valid_true (w : word) (o : write_pc) :
    thread_inv w (write_pc.load_valid true) o ↔ w.accessed = true := Iff.rfl

@[simp] theorem thread_inv_load_valid_false (w : word) (o : write_pc) :
    thread_inv w (write_pc.load_valid false) o ↔ True := Iff.rfl

@[simp] theorem thread_inv_store_copy_true (w : word) (v : Bool) (o : write_pc) :
    thread_inv w (write_pc.store_copy true v) o ↔ (w.accessed = true ∧ v = w.valid) := Iff.rfl

@[simp] theorem thread_inv_store_copy_false (w : word) (v : Bool) (o : write_pc) :
    thread_inv w (write_pc.store_copy false v) o ↔ v = w.valid := Iff.rfl

@[simp] theorem thread_inv_store_written_true (w : word) (o : write_pc) :
    thread_inv w (write_pc.store_written true) o ↔ w.accessed = true := Iff.rfl

@[simp] theorem thread_inv_store_written_false (w : word) (o : write_pc) :
    thread_inv w (write_pc.store_written false) o ↔ True := Iff.rfl

@[simp] theorem thread_inv_store_accessed (w : word) (o : write_pc) :
    thread_inv w write_pc.store_accessed o ↔ w.written = true := Iff.rfl

@[simp] theorem thread_inv_done_true (w : word) (o : write_pc) :
    thread_inv w (write_pc.done true) o ↔ (w.written = true ∧ w.accessed = true) := Iff.rfl

@[simp] theorem thread_inv_done_false (w : word) (o : write_pc) :
    thread_inv w (write_pc.done false) o ↔ committed o = true := Iff.rfl

/-- What a thread knows stays true when the flags of the word only get set,
the valid bit stays, and the other thread stays committed. -/
theorem thread_inv_mono (w w1 : word) (pc other other1 : write_pc)
    (hv : w1.valid = w.valid) (ha : w.accessed = true → w1.accessed = true)
    (hw : w.written = true → w1.written = true)
    (hc : committed other = true → committed other1 = true)
    (h : thread_inv w pc other) : thread_inv w1 pc other1 := by
  rcases pc with _ | wr | wr | ⟨wr, v⟩ | wr | _ | r
  all_goals (try cases wr)
  all_goals (try cases r)
  all_goals simp only [thread_inv_load_written, thread_inv_load_accessed_true,
    thread_inv_load_accessed_false, thread_inv_load_valid_true, thread_inv_load_valid_false,
    thread_inv_store_copy_true, thread_inv_store_copy_false, thread_inv_store_written_true,
    thread_inv_store_written_false, thread_inv_store_accessed, thread_inv_done_true,
    thread_inv_done_false] at h ⊢
  all_goals (try rw [hv])
  all_goals (try tauto)

set_option maxHeartbeats 400000 in
/-- Every atomic step of the first thread keeps the invariant. -/
theorem race_inv_step_first (w0 : word) (source : uint) (w : word) (pc1 pc2 : write_pc)
    (h : race_inv w0 ⟨w, pc1, pc2⟩) :
    race_inv w0 ⟨(write_step source pc1 w).2, (write_step source pc1 w).1, pc2⟩ := by
  obtain ⟨va, ac, wr, a, b⟩ := w
  obtain ⟨h1, h2, h3, h4, h5, h6⟩ := h
  simp only at h1 h2 h3 h4 h5 h6
  rcases pc1 with _ | wr1 | wr1 | ⟨wr1, v1⟩ | wr1 | _ | r1
  all_goals (try cases wr1)
  all_goals (try cases v1)
  all_goals (try cases r1)
  all_goals cases ac
  all_goals cases wr
  all_goals
    refine ⟨?_, ?_, ?_, ?_, ?_, thread_inv_mono _ _ pc2 _ _ ?_ ?_ ?_ ?_ h6⟩
  all_goals simp_all [write_step, valid_copy]

/-- The invariant does not tell the two threads apart. -/
theorem race_inv_swap (w0 w : word) (pc1 pc2 : write_pc) (h : race_inv w0 ⟨w, pc1, pc2⟩) :
    race_inv w0 ⟨w, pc2, pc1⟩ := by
  obtain ⟨h1, h2, h3, h4, h5, h6⟩ := h
  exact ⟨h1, h2, fun h => (h3 h).symm, fun h => (h4 h).symm, h6, h5⟩

/-- Every atomic step of either thread keeps the invariant. -/
theorem race_inv_step (w0 : word) (source1 source2 : uint) (s : race_state) (second : Bool)
    (h : race_inv w0 s) : race_inv w0 (race_step source1 source2 s second) := by
  obtain ⟨w, pc1, pc2⟩ := s
  cases second
  · exact race_inv_step_first w0 source1 w pc1 pc2 h
  · exact race_inv_swap _ _ _ _
      (race_inv_step_first w0 source2 w pc2 pc1 (race_inv_swap _ _ _ _ h))

/-- Every schedule keeps the invariant. -/
theorem race_inv_run (w0 : word) (source1 source2 : uint) (schedule : List Bool)
    (s : race_state) (h : race_inv w0 s) : race_inv w0 (race_run source1 source2 s schedule) := by
  unfold race_run
  induction schedule generalizing s with
  | nil => exact h
  | cons b bs ih =>
    rw [List.foldl_cons]
    exact ih _ (race_inv_step w0 source1 source2 s b h)

/-- C25, as stated, fails. Two threads run a read-write `tm_write_word` on the
same untouched word, the first writing `7` and the second `8`. Under the
schedule in which they take their atomic loads and stores in turn, and under
the schedule in which the first runs its call before the second starts, both
calls return `true`; the word ends with `copy_B = 8`. -/
theorem both_racing_writers_succeed :
    race_run 7 8 (race_start ⟨false, false, false, 5, 0⟩)
        [false, true, false, true, false, true, false, true, false, true, false, true]
      = ⟨⟨false, true, true, 5, 8⟩, write_pc.done true, write_pc.done true⟩
    ∧ race_run 7 8 (race_start ⟨false, false, false, 5, 0⟩)
        [false, false, false, false, false, false, true, true, true, true, true, true]
      = ⟨⟨false, true, true, 5, 8⟩, write_pc.done true, write_pc.done true⟩ := by
  decide

/-- C25, amended. When two threads run a read-write `tm_write_word` on the same
untouched word at the same time, then under every interleaving of their atomic
loads and stores in which each thread gets its six steps both calls return and
at least one of them returns `true`; afterwards the word has `written` and
`accessed` set, and its valid bit and the copy the valid bit selects are as
before. Both calls may return `true`: there need not be a single winner. -/
theorem racing_writers_one_succeeds (target : word) (source1 source2 : uint)
    (schedule : List Bool)
    (ha : target.accessed = false) (hw : target.written = false)
    (h1 : 6 ≤ schedule.count false) (h2 : 6 ≤ schedule.count true) :
    ∃ r1 r2,
      (race_run source1 source2 (race_start target) schedule).pc1 = write_pc.done r1
      ∧ (race_run source1 source2 (race_start target) schedule).pc2 = write_pc.done r2
      ∧ (r1 = true ∨ r2 = true)
      ∧ (race_run source1 source2 (race_start target) schedule).target.written = true
      ∧ (race_run source1 source2 (race_start target) schedule).target.accessed = true
      ∧ (race_run source1 source2 (race_start target) schedule).target.valid = target.valid
      ∧ valid_copy (race_run source1 source2 (race_start target) schedule).target
          = valid_copy target := by
  have hrank := race_run_rank source1 source2 schedule (race_start target)
  have hinv := race_inv_run target source1 source2 schedule (race_start target)
    (race_inv_start target ha hw)
  have hs1 : write_rank (race_start target).pc1 = 6 := rfl
  have hs2 : write_rank (race_start target).pc2 = 6 := rfl
  obtain ⟨r1, hr1⟩ := done_of_rank_zero
    (race_run source1 source2 (race_start target) schedule).pc1
    (by have := hrank.1; omega)
  obtain ⟨r2, hr2⟩ := done_of_rank_zero
    (race_run source1 source2 (race_start target) schedule).pc2
    (by have := hrank.2; omega)
  obtain ⟨i1, i2, -, -, i5, i6⟩ := hinv
  rw [hr1, hr2] at i5 i6
  refine ⟨r1, r2, hr1, hr2, ?_, ?_, ?_, i1, i2⟩
  · cases r1
    · right
      simpa using i5
    · left; rfl
  · cases r1
    · have h3 : r2 = true := by simpa using i5
      subst h3
      exact ((thread_inv_done_true _ _).mp i6).1
    · exact ((thread_inv_done_true _ _).mp i5).1
  · cases r1
    · have h3 : r2 = true := by simpa using i5
      subst h3
      exact ((thread_inv_done_true _ _).mp i6).2
    · exact ((thread_inv_done_true _ _).mp i5).2

/-- Witness for the amended C25 on the untouched word with `copy_A = 5`, under
the schedule in which the second thread runs between the loads of the first
and its stores. -/
theorem racing_writers_one_succeeds_witness :
    ∃ r1 r2,
      (race_run 7 8 (race_start ⟨false, false, false, 5, 0⟩)
        [false, true, true, true, true, true, true, false, false, false, false, false]).pc1
          = write_pc.done r1
      ∧ (race_run 7 8 (race_start ⟨false, false, false, 5, 0⟩)
        [false, true, true, true, true, true, true, false, false, false, false, false]).pc2
          = write_pc.done r2
      ∧ (r1 = true ∨ r2 = true)
      ∧ (race_run 7 8 (race_start ⟨false, false, false, 5, 0⟩)
        [false, true, true, true, true, true, true, false, false, false, false, false]).target.written
          = true
      ∧ (race_run 7 8 (race_start ⟨false, false, false, 5, 0⟩)
        [false, true, true, true, true, true, true, false, false, false, false, false]).target.accessed
          = true
      ∧ (race_run 7 8 (race_start ⟨false, false, false, 5, 0⟩)
        [false, true, true, true, true, true, true, false, false, false, false, false]).target.valid
          = (⟨false, false, false, 5, 0⟩ : word).valid
      ∧ valid_copy (race_run 7 8 (race_start ⟨false, false, false, 5, 0⟩)
        [false, true, true, true, true, true, true, false, false, false, false, false]).target
          = valid_copy ⟨false, false, false, 5, 0⟩ :=
  racing_writers_one_succeeds ⟨false, false, false, 5, 0⟩ 7 8
    [false, true, true, true, true, true, true, false, false, false, false, false]
    (by decide) (by decide) (by decide) (by decide)

end TM
